import Mathlib

/-!
Verification of `src/jquery.makePlugin.js` against its specification.

The JavaScript source is shallowly embedded as follows.

* JS values are `JsVal`: primitives, or references into an explicit `Heap`
  of objects (association lists of named `JsVal`s).  This captures the
  aliasing/mutation behaviour of `jQuery.extend`, which claim C2 is about.
* Object literals written by a caller (plugin `defaults` before they are
  allocated, caller configuration objects, API arguments) are pure trees
  (`JsTree`/`JsFields`); `allocTree` places such a literal into the heap.
* `jQuery.extend(true, target, src)` restricted to a literal source is
  `extendDeepVal`/`extendDeepFields`; `jQuery.extend({ }, obj)` is
  `shallowCopyVal`.  Both follow jQuery's implementation: the non-deep
  extend copies own properties by reference; the deep extend reuses an
  existing plain-object `target[name]` as the clone that is extended in
  place (`clone = src; target[name] = jQuery.extend(deep, clone, copy)`).
  `undefined`-valued properties do not exist in the model (jQuery's extend
  skips them), arrays are not modelled, and the `target === copy` guard
  can never fire because the source is a literal tree.
* Stateful jQuery facilities consumed by the plugin (`.data`, `.on`,
  `.off`, `.trigger`, `.remove`) are modelled by an explicit `JQState`:
  a heap, the per-element data store, the list of live event bindings and
  the set of live elements.  An element (or wrapped element set) is a `Nat`
  identifier.  Event-handler, API and field callbacks are Lean functions
  taking the observable fields of the plugin instance (`InstView`) as the
  `this` receiver; `pluginDef.init` and `pluginDef.helpers` are plugin
  author's code not involved in any claim and are not modelled.  Property
  lookup `api[arg]` is modelled for string keys as JS property lookup on a
  plain object: the declared own properties first, then the properties the
  object inherits from `Object.prototype` (so an undeclared name such as
  `"toString"` is truthy and takes the dispatch path, not the error path).
  The string coercion of non-string property keys is not modelled: no
  coerced key (`"[object Object]"`, a decimal numeral, `"true"`, `"null"`,
  ...) is an `Object.prototype` name, so this only abstracts the corner
  where a plugin author declares such a string as an API method name.
-/

set_option maxHeartbeats 1000000
set_option autoImplicit false

namespace MakePlugin

/-- JavaScript primitive values appearing in plugin configurations. -/
inductive JsPrim where
  | null
  | bool (b : Bool)
  | num (n : Int)
  | str (s : String)
deriving DecidableEq

/-- A JavaScript value: a primitive, or a reference to a heap object. -/
inductive JsVal where
  | prim (p : JsPrim)
  | ref (a : Nat)
deriving DecidableEq

mutual
/-- A pure object-literal tree (a caller-side JS value with no sharing). -/
inductive JsTree where
  | prim (p : JsPrim)
  | obj (fields : JsFields)
deriving DecidableEq
/-- The fields of an object literal, in property insertion order. -/
inductive JsFields where
  | nil
  | cons (key : String) (val : JsTree) (rest : JsFields)
deriving DecidableEq
end

/-- The own properties of a heap object, in insertion order. -/
abbrev Fields := List (String × JsVal)

/-- A heap of JS objects: addresses paired with their properties, plus the
next fresh address. -/
structure Heap where
  objs : List (Nat × Fields)
  next : Nat

def lookupObj : List (Nat × Fields) → Nat → Option Fields
  | [], _ => none
  | (b, fs) :: rest, a => if b = a then some fs else lookupObj rest a

/-- Read the properties of the object at address `a` (empty if unallocated). -/
def Heap.get (h : Heap) (a : Nat) : Fields := (lookupObj h.objs a).getD []

def setObj : List (Nat × Fields) → Nat → Fields → List (Nat × Fields)
  | [], a, fs => [(a, fs)]
  | (b, g) :: rest, a, fs => if b = a then (a, fs) :: rest else (b, g) :: setObj rest a fs

/-- Overwrite the properties of the object at address `a`. -/
def Heap.set (h : Heap) (a : Nat) (fs : Fields) : Heap :=
  { h with objs := setObj h.objs a fs }

/-- Allocate a fresh object with properties `fs`. -/
def Heap.alloc1 (h : Heap) (fs : Fields) : Heap × Nat :=
  ({ objs := (h.next, fs) :: h.objs, next := h.next + 1 }, h.next)

/-- JS property read `obj[key]` (own properties). -/
def getField : Fields → String → Option JsVal
  | [], _ => none
  | (k, v) :: rest, key => if k = key then some v else getField rest key

/-- JS property write `obj[key] = v`: overwrite in place, or append. -/
def setField : Fields → String → JsVal → Fields
  | [], key, v => [(key, v)]
  | (k, w) :: rest, key, v => if k = key then (key, v) :: rest else (k, w) :: setField rest key v

/-- Property read on an object-literal tree. -/
def getFieldT : JsFields → String → Option JsTree
  | .nil, _ => none
  | .cons k v rest, key => if k = key then some v else getFieldT rest key

/-- Property write on an object-literal tree. -/
def setFieldT : JsFields → String → JsTree → JsFields
  | .nil, key, v => .cons key v .nil
  | .cons k w rest, key, v =>
    if k = key then .cons key v rest else .cons k w (setFieldT rest key v)

mutual
/-- One step of `jQuery.extend(true, target, src)` for the source property
`name` holding the literal value `copy`.  Follows jQuery's implementation:
a plain-object `copy` is merged into the existing plain object `target[name]`
when there is one (mutating it in place), otherwise into a fresh empty
object; any other `copy` is written to `target[name]` directly. -/
def extendDeepVal (h : Heap) (target : Nat) (name : String) : JsTree → Heap
  | .prim p => h.set target (setField (h.get target) name (.prim p))
  | .obj cfs =>
    match getField (h.get target) name with
    | some (.ref a) =>
      let h1 := extendDeepFields h a cfs
      h1.set target (setField (h1.get target) name (.ref a))
    | _ =>
      let (h0, a) := h.alloc1 []
      let h1 := extendDeepFields h0 a cfs
      h1.set target (setField (h1.get target) name (.ref a))
/-- Model of `jQuery.extend(true, target, src)` for a literal source object: merge
each source property into `target`, in property order. -/
def extendDeepFields (h : Heap) (target : Nat) : JsFields → Heap
  | .nil => h
  | .cons name copy rest => extendDeepFields (extendDeepVal h target name copy) target rest
end

/-- Model of `jQuery.extend({ }, v)` (non-deep): a fresh object whose own properties
are copied from `v` by reference; `{ }` when `v` is not an object. -/
def shallowCopyVal (h : Heap) (v : JsVal) : Heap × Nat :=
  match v with
  | .ref a => h.alloc1 (h.get a)
  | .prim _ => h.alloc1 []

/-- Line 105 of the source:
`this.config = $.extend(true, $.extend({ }, pluginDef.defaults), config);`
`config` is the caller's configuration argument (`none` when the `config`
parameter was omitted); a non-object `config` contributes nothing. -/
def pluginConfig (h : Heap) (defaults : JsVal) (config : Option JsTree) : Heap × JsVal :=
  let (h1, c) := shallowCopyVal h defaults
  match config with
  | some (.obj cfs) => (extendDeepFields h1 c cfs, .ref c)
  | _ => (h1, .ref c)

mutual
/-- Allocate an object-literal tree into the heap, yielding its value. -/
def allocTree (h : Heap) : JsTree → Heap × JsVal
  | .prim p => (h, .prim p)
  | .obj fs =>
    let (h1, fvs) := allocFields h fs
    let (h2, a) := h1.alloc1 fvs
    (h2, .ref a)
def allocFields (h : Heap) : JsFields → Heap × Fields
  | .nil => (h, [])
  | .cons k t rest =>
    let (h1, v) := allocTree h t
    let (h2, vs) := allocFields h1 rest
    (h2, (k, v) :: vs)
end

/-- Read a value back out of the heap as a literal tree (`fuel` bounds the
dereferencing depth; `none` when the fuel runs out). -/
def readbackFieldsAux (f : JsVal → Option JsTree) : Fields → Option JsFields
  | [] => some .nil
  | (k, v) :: rest =>
    match f v, readbackFieldsAux f rest with
    | some t, some ts => some (.cons k t ts)
    | _, _ => none

def readback : Nat → Heap → JsVal → Option JsTree
  | _, _, .prim p => some (.prim p)
  | 0, _, .ref _ => none
  | fuel + 1, h, .ref a => (readbackFieldsAux (readback fuel h) (h.get a)).map .obj

mutual
/-- Specification-side deep merge of an override value into an old value
(present when the key exists): the override takes precedence, except that
two objects are merged recursively, key by key.  (From the spec: "the
merged configuration equals the deep merge of defaults and overrides with
override values taking precedence at every nesting level".)  An object
override of a non-object (or missing) old value is normalised through a
merge into the empty object, which is the identity on duplicate-free
fields — JS objects never carry duplicate keys. -/
def mergeOne : Option JsTree → JsTree → JsTree
  | _, .prim p => .prim p
  | some (.obj afs), .obj vfs => .obj (mergeTreeFields afs vfs)
  | _, .obj vfs => .obj (mergeTreeFields .nil vfs)
/-- Specification-side deep merge of override fields into default fields:
defaults first (in order), overrides merged in key by key, new keys
appended in override order. -/
def mergeTreeFields (acc : JsFields) : JsFields → JsFields
  | .nil => acc
  | .cons k v rest => mergeTreeFields (setFieldT acc k (mergeOne (getFieldT acc k) v)) rest
end

/-- Specification-side deep merge of a caller override into the defaults. -/
def specDeepMerge : JsTree → JsTree → JsTree
  | .obj dfs, .obj cfs => .obj (mergeTreeFields dfs cfs)
  | _, c => c

mutual
/-- The heap `h` represents the literal tree at the value `v`, with `as`
the addresses of the objects in the tree's image (parent before children,
siblings in order).  A duplicate-free `as` expresses exclusive ownership
of the region. -/
def ReprVal (h : Heap) (v : JsVal) : JsTree → List Nat → Prop
  | .prim p, as => v = .prim p ∧ as = []
  | .obj fts, as => ∃ a bs, v = .ref a ∧ as = a :: bs ∧ ReprFlds h (h.get a) fts bs
/-- Field-list form of `ReprVal`: `flds` and the literal fields agree key
for key, in order, with `as` the concatenation of the values' regions. -/
def ReprFlds (h : Heap) (flds : Fields) : JsFields → List Nat → Prop
  | .nil, as => flds = [] ∧ as = []
  | .cons k t fts, as => ∃ v rest as1 as2,
      flds = (k, v) :: rest ∧ as = as1 ++ as2 ∧ ReprVal h v t as1 ∧ ReprFlds h rest fts as2
end

/-- All addresses in `as` are below the bound `n`. -/
def Below (n : Nat) (as : List Nat) : Prop := ∀ a ∈ as, a < n

/-! ### Main lemma: the deep extend computes the specification merge -/

/-- Contract of a deep-extend step on the object at `target`, whose old
fields are represented with region `target :: tas`: `next` only grows;
addresses outside the old region and below the old `next` keep their
contents; and the new heap represents the merged fields at `target`, with
a duplicate-free region drawn from the old region and fresh addresses. -/
def ExtGood (h : Heap) (target : Nat) (tas : List Nat) (h' : Heap) (fts' : JsFields) : Prop :=
  h.next ≤ h'.next ∧
  (∀ b, b ∉ target :: tas → b < h.next → h'.get b = h.get b) ∧
  ∃ tas', ReprVal h' (.ref target) (.obj fts') (target :: tas') ∧
    (target :: tas').Nodup ∧ Below h'.next (target :: tas') ∧
    ∀ x ∈ tas', x ∈ tas ∨ h.next ≤ x

/-! ### Correctness of the config construction (source line 105) -/

/-- The fields the caller configuration actually contributes to the deep
extend: its own fields when it is an object, nothing otherwise. -/
def effectiveConfig : Option JsTree → JsFields
  | some (.obj cfs) => cfs
  | _ => .nil

/-! ### The plugin lifecycle model -/

/-- The observable fields of a `Plugin` instance, used as the `this`
receiver of the plugin's callbacks. -/
structure InstView where
  pluginName : String
  element : Nat
  configVal : JsVal

/-- A descriptor field that is either a literal or a zero-argument callback
evaluated with the instance as receiver (`val.apply(self)`, line 292). -/
inductive FieldVal (α : Type) where
  | lit (a : α)
  | cb (f : InstView → α)

/-- An `EventHandlerDefinition` (source lines 40-62): `eventName`, optional
`target` and `selector` (literal or callback), and the handler callback.
`none` models an absent (`undefined`) property.  The handler callback is
identified by an abstract id; `handlerDef.handler || $.noop()` (line 188)
keeps the handler as is (`$.noop()` evaluates to `undefined`), so an
absent handler stays absent. -/
structure HandlerDef where
  eventName : Option (FieldVal String)
  target : Option (FieldVal Nat)
  selector : Option (FieldVal String)
  handler : Option Nat

/-- An API method: executed with the instance as receiver (line 258),
taking the forwarded argument list, returning a JS value. -/
def ApiFn : Type := InstView → List JsTree → JsTree

/-- A `PluginDefinition` (source lines 21-38).  `pluginName` is a string
(so the `$.type(pluginDef.pluginName) !== "string"` check at line 249
cannot fire); `defaults` is a heap value shared by every construction;
`api` holds the function-valued API entries (line 257 proxies only
functions); `init` and `helpers` are plugin-author code not involved in
any claim and not modelled. -/
structure PluginDef where
  pluginName : String
  defaults : JsVal
  api : List (String × ApiFn)
  eventHandlers : List HandlerDef

/-- A live event binding made by `$(target).on(fullEventName, selector, ...)`
(line 189): the bind-time resolved target, the namespaced event identifier,
the resolved selector, the handler id, and a creation serial number. -/
structure Binding where
  target : Nat
  fullEventName : String
  selector : Option String
  handler : Option Nat
  id : Nat
deriving DecidableEq

/-- A constructed `Plugin` instance (its function-valued members run via
its definition; `instId` models JS object identity). -/
structure PluginInst where
  pluginName : String
  element : Nat
  configVal : JsVal
  eventHandlers : List HandlerDef
  instId : Nat

def instView (p : PluginInst) : InstView :=
  { pluginName := p.pluginName, element := p.element, configVal := p.configVal }

/-- The jQuery-backed mutable world: the object heap, the per-element data
store (`$(element).data(pluginName)`), the live event bindings, serial
counters for bindings and instances, and the set of live elements. -/
structure JQState where
  heap : Heap
  store : List ((Nat × String) × PluginInst)
  bindings : List Binding
  nextBindingId : Nat
  nextInstId : Nat
  elements : List Nat

def lookupStore : List ((Nat × String) × PluginInst) → Nat × String → Option PluginInst
  | [], _ => none
  | (k, p) :: rest, key => if k = key then some p else lookupStore rest key

/-- Model of `getValue` (source lines 286-296): `null`/`undefined` resolve to `null`
(`none`); a callback is evaluated with the instance as receiver; any other
value is returned unchanged. -/
def getValue {α : Type} (self : InstView) : Option (FieldVal α) → Option α
  | none => none
  | some (.lit a) => some a
  | some (.cb f) => some (f self)

/-- The test `!eventName` (lines 181, 210, 235): `null` and `""` are falsy. -/
def strFalsy : Option String → Bool
  | none => true
  | some s => s == ""

def errEventName : String := "handlerDef.eventName is required"

/-- Model of `Plugin.bind` (source lines 177-190). -/
def instBind (st : JQState) (self : InstView) (hd : HandlerDef) : Except String JQState :=
  let en? := getValue self hd.eventName
  if strFalsy en? then .error errEventName
  else
    let fullEventName := en?.getD "" ++ "." ++ self.pluginName
    let target := (getValue self hd.target).getD self.element
    let selector := getValue self hd.selector
    .ok { st with
          bindings := st.bindings ++
            [{ target := target, fullEventName := fullEventName, selector := selector,
               handler := hd.handler, id := st.nextBindingId }],
          nextBindingId := st.nextBindingId + 1 }

/-- Which bindings `$(target).off(fullEventName, selector)` removes
(line 217): those with the same target and namespaced event identifier;
when a selector was passed, only the bindings carrying that selector. -/
def unbindMatches (tgt : Nat) (fullEventName : String) (sel : Option String) (b : Binding) : Bool :=
  b.target == tgt && b.fullEventName == fullEventName && (sel.isNone || b.selector == sel)

/-- Model of `Plugin.unbind` (source lines 206-218). -/
def instUnbind (st : JQState) (self : InstView) (hd : HandlerDef) : Except String JQState :=
  let en? := getValue self hd.eventName
  if strFalsy en? then .error errEventName
  else
    let fullEventName := en?.getD "" ++ "." ++ self.pluginName
    let target := (getValue self hd.target).getD self.element
    let selector := getValue self hd.selector
    .ok { st with
          bindings := st.bindings.filter
            (fun b => !(unbindMatches target fullEventName selector b)) }

/-- Model of `Plugin.trigger` (source lines 231-242): returns the bindings whose
handlers the dispatched event can invoke (same target, same namespaced
event identifier; selector-based delegation scoping inside the target is
abstracted away). -/
def instTrigger (st : JQState) (self : InstView) (hd : HandlerDef) :
    Except String (List Binding) :=
  let en? := getValue self hd.eventName
  if strFalsy en? then .error errEventName
  else
    let fullEventName := en?.getD "" ++ "." ++ self.pluginName
    let target := (getValue self hd.target).getD self.element
    .ok (st.bindings.filter (fun b => b.target == target && b.fullEventName == fullEventName))

/-- The `$.each(self.eventHandlers, ... self.bind ...)` loop (lines 272-274). -/
def bindAll (st : JQState) (self : InstView) : List HandlerDef → Except String JQState
  | [] => .ok st
  | hd :: rest =>
    match instBind st self hd with
    | .error e => .error e
    | .ok st' => bindAll st' self rest

/-- The `$.each(self.eventHandlers, ... self.unbind ...)` loop (lines 150-152). -/
def unbindAll (st : JQState) (self : InstView) : List HandlerDef → Except String JQState
  | [] => .ok st
  | hd :: rest =>
    match instUnbind st self hd with
    | .error e => .error e
    | .ok st' => unbindAll st' self rest

/-- Model of `$(self.element).remove()` (line 155): the element disappears, along
with its data entries and the handlers bound on it. -/
def removeElem (st : JQState) (e : Nat) : JQState :=
  { st with
    elements := st.elements.filter (fun x => x != e),
    bindings := st.bindings.filter (fun b => b.target != e),
    store := st.store.filter (fun kv => kv.1.1 != e) }

/-- Model of `Plugin.destroy` (source lines 146-157): unbind every handler
registered at initialization, then optionally remove the element. -/
def instDestroy (st : JQState) (p : PluginInst) (fullDestroy : Bool) : Except String JQState :=
  match unbindAll st (instView p) p.eventHandlers with
  | .error e => .error e
  | .ok st2 => .ok (if fullDestroy then removeElem st2 p.element else st2)

/-- The `Plugin` constructor (source lines 69-281): build `this.config`
(line 105), record the handler list (line 135), then bind every declared
handler (lines 272-274). -/
def mkPlugin (st : JQState) (pdef : PluginDef) (element : Nat) (config : Option JsTree) :
    Except String (JQState × PluginInst) :=
  let cfg := pluginConfig st.heap pdef.defaults config
  let inst : PluginInst :=
    { pluginName := pdef.pluginName, element := element, configVal := cfg.2,
      eventHandlers := pdef.eventHandlers, instId := st.nextInstId }
  match bindAll { st with heap := cfg.1, nextInstId := st.nextInstId + 1 }
      (instView inst) pdef.eventHandlers with
  | .error e => .error e
  | .ok st2 => .ok (st2, inst)

/-- Model of `getPlugin` (source lines 315-323): return the instance cached on the
element under the plugin name, or construct and cache a new one. -/
def getPlugin (st : JQState) (pdef : PluginDef) (element : Nat) (options_ : Option JsTree) :
    Except String (JQState × PluginInst) :=
  match lookupStore st.store (element, pdef.pluginName) with
  | some p => .ok (st, p)
  | none =>
    match mkPlugin st pdef element options_ with
    | .error e => .error e
    | .ok (st2, p) =>
      .ok ({ st2 with store := ((element, pdef.pluginName), p) :: st2.store }, p)

def lookupApi : List (String × ApiFn) → String → Option ApiFn
  | [], _ => none
  | (k, f) :: rest, key => if k = key then some f else lookupApi rest key

/-- The own property names of `Object.prototype`.  A plain object such as
`pluginDef.api` inherits all of them, so the JS lookup `api[k]` is truthy
for each of these keys even when `k` is not a declared method name: the
first eleven are functions, and the accessor `__proto__` resolves to
`Object.prototype` itself, also truthy. -/
def objectProtoKeys : List String :=
  ["constructor", "hasOwnProperty", "isPrototypeOf", "propertyIsEnumerable",
   "toLocaleString", "toString", "valueOf",
   "__defineGetter__", "__defineSetter__", "__lookupGetter__", "__lookupSetter__",
   "__proto__"]

/-- What `plugin.api[arg].apply(plugin, ...)` (line 347) does when `arg` is
an undeclared `Object.prototype` name.  `__proto__` is not a function, so
applying it throws a `TypeError`; `toString`/`toLocaleString` return the
receiver's default string form; the return values of the remaining
builtins are not literal values and are abstracted to `null` — no claim
depends on an inherited builtin's return value, only on the call
dispatching instead of reaching `$.error`. -/
def objectProtoCall (k : String) : Except String JsTree :=
  if k = "__proto__" then .error "TypeError: plugin.api[arg] is not a function"
  else if k = "toString" || k = "toLocaleString" then .ok (.prim (.str "[object Object]"))
  else .ok (.prim .null)

/-- What the JS property read `api[arg]` (line 345) finds: a declared API
method (an own property of the plain object `pluginDef.api`), a property
inherited from `Object.prototype`, or nothing (`undefined`, falsy).  The
api table holds only functions, which are truthy, so the `if (api[arg])`
test succeeds exactly when the slot is not `absent`. -/
inductive ApiSlot where
  | declared (f : ApiFn)
  | inherited (k : String)
  | absent

/-- The lookup `api[arg]` on the entry point's first argument, for string
keys (the JS string coercion of non-string keys is not modelled; no
coerced key is an `Object.prototype` name).  Own properties shadow the
prototype, so a declared name wins. -/
def apiArgLookup (pdef : PluginDef) : Option JsTree → ApiSlot
  | some (.prim (.str s)) =>
    match lookupApi pdef.api s with
    | some f => .declared f
    | none => if objectProtoKeys.contains s then .inherited s else .absent
  | _ => .absent

/-- JS truthiness of a value. -/
def truthy : JsTree → Bool
  | .prim .null => false
  | .prim (.bool b) => b
  | .prim (.num n) => n != 0
  | .prim (.str s) => s != ""
  | .obj _ => true

/-- The test `typeof arg === "object" || !arg` (line 348): an object or `null`
(`typeof null` is `"object"`), a falsy primitive, or an absent argument. -/
def argIsObjectOrFalsy : Option JsTree → Bool
  | none => true
  | some (.obj _) => true
  | some (.prim .null) => true
  | some v => !truthy v

/-- The string coercion in `"Method [" + arg + "]"` (line 353). -/
def jsToString : JsTree → String
  | .prim .null => "null"
  | .prim (.bool b) => if b then "true" else "false"
  | .prim (.num n) => toString n
  | .prim (.str s) => s
  | .obj _ => "[object Object]"

/-- What the generated entry point returns: the wrapped element handle
(`.element`, line 350) or an API method's return value (line 347). -/
inductive EntryResult where
  | handle (e : Nat)
  | value (v : JsTree)
deriving DecidableEq

/-- The generated `$.fn[pluginDef.pluginName]` (source lines 336-355). -/
def pluginFn (st : JQState) (pdef : PluginDef) (element : Nat) (args : List JsTree) :
    Except String (JQState × EntryResult) :=
  let arg := args.head?
  match apiArgLookup pdef arg with
  | .declared f =>
    match getPlugin st pdef element none with
    | .error e => .error e
    | .ok (st2, p) => .ok (st2, .value (f (instView p) (args.drop 1)))
  | .inherited k =>
    match getPlugin st pdef element none with
    | .error e => .error e
    | .ok (st2, _) =>
      match objectProtoCall k with
      | .error e => .error e
      | .ok t => .ok (st2, .value t)
  | .absent =>
    if argIsObjectOrFalsy arg then
      let options : Option JsTree :=
        match args with
        | [] => some (.obj .nil)
        | v :: _ => some v
      match getPlugin st pdef element options with
      | .error e => .error e
      | .ok (st2, p) => .ok (st2, .handle p.element)
    else
      .error ("Method [" ++ jsToString (arg.getD (.prim .null)) ++ "] does not exist for jQuery."
        ++ pdef.pluginName)

/-- Model of `makePlugin` (source lines 327-356): reject a falsy plugin name,
otherwise expose the entry point under the plugin's name. -/
def makePlugin (pdef : PluginDef) :
    Except String (String × (JQState → Nat → List JsTree → Except String (JQState × EntryResult))) :=
  if pdef.pluginName == "" then .error "Invalid plugin name (argument: pluginDef.pluginName)"
  else .ok (pdef.pluginName, fun st element args => pluginFn st pdef element args)

/-- Store well-formedness: every cached instance is keyed by its own
element and plugin name.  The store operations maintain this. -/
def StoreWF (st : JQState) : Prop :=
  ∀ e n p, lookupStore st.store (e, n) = some p → p.element = e ∧ p.pluginName = n

/-- Does some descriptor in the list match this binding under `unbind`'s
criteria (resolved with the given receiver)? -/
def matchesAny (self : InstView) (hds : List HandlerDef) (b : Binding) : Bool :=
  hds.any (fun hd => unbindMatches ((getValue self hd.target).getD self.element)
    ((getValue self hd.eventName).getD "" ++ "." ++ self.pluginName)
    (getValue self hd.selector) b)

/-! ### Witness fixtures -/

def c1DefTree : JsFields :=
  .cons "a" (.obj (.cons "x" (.prim (.num 1)) (.cons "y" (.prim (.num 2)) .nil))) .nil

def c1Alloc : Heap × JsVal := allocTree ⟨[], 0⟩ (.obj c1DefTree)

def c1State : JQState := ⟨c1Alloc.1, [], [], 0, 0, [1]⟩

def c1Pdef : PluginDef := ⟨"plug", c1Alloc.2, [], []⟩

def c1Cfg : JsFields := .cons "a" (.obj (.cons "x" (.prim (.num 9)) .nil)) .nil

def c2DefTree : JsFields := .cons "a" (.obj (.cons "x" (.prim (.num 1)) .nil)) .nil

def c2Alloc : Heap × JsVal := allocTree ⟨[], 0⟩ (.obj c2DefTree)

def c2State : JQState := ⟨c2Alloc.1, [], [], 0, 0, [1]⟩

def c2Pdef : PluginDef := ⟨"plug", c2Alloc.2, [], []⟩

def c2Cfg : JsTree := .obj (.cons "a" (.obj (.cons "x" (.prim (.num 2)) .nil)) .nil)

def c10DefTree : JsFields := .cons "opt" (.prim (.num 4)) .nil

def c10Alloc : Heap × JsVal := allocTree ⟨[], 0⟩ (.obj c10DefTree)

def c10State : JQState := ⟨c10Alloc.1, [], [], 0, 0, [1]⟩

def c10Fn : ApiFn := fun _ args => .prim (.num args.length)

def c10Pdef : PluginDef := ⟨"plug", c10Alloc.2, [("go", c10Fn)], []⟩

/-! ### Witness fixtures for the cache and entry-point claims -/

def c3State : JQState := ⟨⟨[], 0⟩, [], [], 0, 0, [1, 2]⟩

def c3Pdef : PluginDef := ⟨"p", .prim .null, [], []⟩

def c4State : JQState := ⟨⟨[], 0⟩, [], [], 0, 0, [1]⟩

def c4Fn : ApiFn := fun _ args => .prim (.num args.length)

def c4Pdef : PluginDef := ⟨"plug", .prim .null, [("echo", c4Fn)], []⟩

def c5State : JQState := ⟨⟨[], 0⟩, [], [], 0, 0, [1]⟩

def c5Fn : ApiFn := fun _ _ => .prim .null

def c5Pdef : PluginDef := ⟨"plug", .prim .null, [("echo", c5Fn)], []⟩

def c6State : JQState := ⟨⟨[], 0⟩, [], [], 0, 0, [7]⟩

def c6Pdef : PluginDef := ⟨"p", .prim .null, [], []⟩

/-! ### Witness fixtures for the handler-operation and destruction claims -/

def c7View : InstView := ⟨"plug", 1, .prim .null⟩

def c7State : JQState := ⟨⟨[], 0⟩, [], [], 0, 0, [1]⟩

def c7HdBad : HandlerDef := ⟨none, none, none, some 0⟩

def c7HdGood : HandlerDef := ⟨some (.lit "click"), none, none, some 0⟩

def c8View : InstView := ⟨"plug", 1, .prim .null⟩

def c8State : JQState :=
  ⟨⟨[], 0⟩, [], [⟨1, "click.plug", none, some 9, 0⟩, ⟨1, "click.other", none, some 8, 1⟩], 2, 0, [1]⟩

def c8Hd : HandlerDef := ⟨some (.cb (fun _ => "click")), none, none, some 0⟩

def c9State : JQState := ⟨⟨[], 0⟩, [], [], 0, 0, [1]⟩

def c9Hd : HandlerDef := ⟨some (.lit "click"), none, none, some 0⟩

def c9Pdef : PluginDef := ⟨"p", .prim .null, [], [c9Hd]⟩

/-! ### Heap lemmas -/

theorem lookupObj_setObj_self (l : List (Nat × Fields)) (a : Nat) (fs : Fields) :
    lookupObj (setObj l a fs) a = some fs := by
  induction l with
  | nil => simp [setObj, lookupObj]
  | cons e rest ih =>
    by_cases hba : e.1 = a
    · simp [setObj, hba, lookupObj]
    · simpa [setObj, hba, lookupObj] using ih

theorem lookupObj_setObj_ne (l : List (Nat × Fields)) (a b : Nat) (fs : Fields) (hne : b ≠ a) :
    lookupObj (setObj l a fs) b = lookupObj l b := by
  induction l with
  | nil => simp [setObj, lookupObj, Ne.symm hne]
  | cons e rest ih =>
    obtain ⟨c, g⟩ := e
    by_cases hca : c = a
    · subst hca
      simp [setObj, lookupObj, Ne.symm hne]
    · simp [setObj, hca, lookupObj, ih]

theorem heapGet_set_self (h : Heap) (a : Nat) (fs : Fields) : (h.set a fs).get a = fs := by
  show (lookupObj (setObj h.objs a fs) a).getD [] = fs
  rw [lookupObj_setObj_self]
  rfl

theorem heapGet_set_ne (h : Heap) (a b : Nat) (fs : Fields) (hne : b ≠ a) :
    (h.set a fs).get b = h.get b := by
  show (lookupObj (setObj h.objs a fs) b).getD [] = _
  rw [lookupObj_setObj_ne _ _ _ _ hne]
  rfl

theorem heapSet_next (h : Heap) (a : Nat) (fs : Fields) : (h.set a fs).next = h.next := rfl

theorem heapGet_alloc1_self (h : Heap) (fs : Fields) :
    (h.alloc1 fs).1.get h.next = fs := by
  simp [Heap.alloc1, Heap.get, lookupObj]

theorem heapAlloc1_next (h : Heap) (fs : Fields) : (h.alloc1 fs).1.next = h.next + 1 := rfl

theorem heapAlloc1_snd (h : Heap) (fs : Fields) : (h.alloc1 fs).2 = h.next := rfl

theorem heapGet_alloc1_ne (h : Heap) (fs : Fields) (b : Nat) (hne : b ≠ h.next) :
    (h.alloc1 fs).1.get b = h.get b := by
  simp [Heap.alloc1, Heap.get, lookupObj, Ne.symm hne]

/-! ### Frame lemmas: representation only depends on the region's addresses -/

mutual
theorem reprVal_frame (h h' : Heap) : ∀ (t : JsTree) (v : JsVal) (as : List Nat),
    ReprVal h v t as → (∀ a ∈ as, h'.get a = h.get a) → ReprVal h' v t as
  | .prim _, v, as, hr, _ => hr
  | .obj fts, v, as, hr, hag => by
    simp only [ReprVal] at hr ⊢
    obtain ⟨a, bs, rfl, rfl, hf⟩ := hr
    have ha : h'.get a = h.get a := hag a (by simp)
    refine ⟨a, bs, rfl, rfl, ?_⟩
    rw [ha]
    exact reprFlds_frame h h' fts (h.get a) bs hf (fun x hx => hag x (by simp [hx]))
theorem reprFlds_frame (h h' : Heap) : ∀ (fts : JsFields) (flds : Fields) (as : List Nat),
    ReprFlds h flds fts as → (∀ a ∈ as, h'.get a = h.get a) → ReprFlds h' flds fts as
  | .nil, flds, as, hr, _ => hr
  | .cons k t fts, flds, as, hr, hag => by
    simp only [ReprFlds] at hr ⊢
    obtain ⟨v, rest, as1, as2, rfl, rfl, hv, hrest⟩ := hr
    exact ⟨v, rest, as1, as2, rfl, rfl,
      reprVal_frame h h' t v as1 hv (fun x hx => hag x (by simp [hx])),
      reprFlds_frame h h' fts rest as2 hrest (fun x hx => hag x (by simp [hx]))⟩
end

theorem reprVal_ref_obj (h : Heap) (a : Nat) (fts : JsFields) (bs : List Nat)
    (hf : ReprFlds h (h.get a) fts bs) : ReprVal h (.ref a) (.obj fts) (a :: bs) := by
  simp only [ReprVal]
  exact ⟨a, bs, rfl, rfl, hf⟩

theorem reprVal_obj_elim (h : Heap) (a : Nat) (fts : JsFields) (as : List Nat)
    (hr : ReprVal h (.ref a) (.obj fts) as) :
    as = a :: as.tail ∧ ReprFlds h (h.get a) fts as.tail := by
  simp only [ReprVal] at hr
  obtain ⟨a', bs, heq, rfl, hf⟩ := hr
  cases heq
  exact ⟨rfl, hf⟩

/-! ### Field-level correspondence lemmas -/

theorem mergeOne_prim (o : Option JsTree) (p : JsPrim) : mergeOne o (.prim p) = .prim p := by
  match o with
  | none => rfl
  | some (.prim _) => rfl
  | some (.obj _) => rfl

theorem mergeOne_obj_obj (afs vfs : JsFields) :
    mergeOne (some (.obj afs)) (.obj vfs) = .obj (mergeTreeFields afs vfs) := rfl

theorem mergeOne_none_obj (vfs : JsFields) :
    mergeOne none (.obj vfs) = .obj (mergeTreeFields .nil vfs) := rfl

theorem mergeOne_prim_obj (q : JsPrim) (vfs : JsFields) :
    mergeOne (some (.prim q)) (.obj vfs) = .obj (mergeTreeFields .nil vfs) := rfl

theorem reprFlds_nil (h : Heap) : ReprFlds h [] .nil [] := by
  simp [ReprFlds]

theorem reprFlds_cons (h : Heap) (k : String) (v : JsVal) (t : JsTree) (flds : Fields)
    (fts : JsFields) (as1 as2 : List Nat) (h1 : ReprVal h v t as1)
    (h2 : ReprFlds h flds fts as2) :
    ReprFlds h ((k, v) :: flds) (.cons k t fts) (as1 ++ as2) := by
  simp only [ReprFlds]
  exact ⟨v, flds, as1, as2, rfl, rfl, h1, h2⟩

theorem reprVal_val_prim (h : Heap) (p : JsPrim) (t : JsTree) (as : List Nat)
    (hr : ReprVal h (.prim p) t as) : t = .prim p ∧ as = [] := by
  cases t with
  | prim q =>
    simp only [ReprVal] at hr
    obtain ⟨h1, h2⟩ := hr
    cases h1
    exact ⟨rfl, h2⟩
  | obj fts =>
    simp only [ReprVal] at hr
    obtain ⟨a, bs, heq, _, _⟩ := hr
    cases heq

theorem reprVal_val_ref (h : Heap) (a : Nat) (t : JsTree) (as : List Nat)
    (hr : ReprVal h (.ref a) t as) :
    ∃ fts bs, t = .obj fts ∧ as = a :: bs ∧ ReprFlds h (h.get a) fts bs := by
  cases t with
  | prim q =>
    simp only [ReprVal] at hr
    obtain ⟨heq, _⟩ := hr
    cases heq
  | obj fts =>
    simp only [ReprVal] at hr
    obtain ⟨a', bs, heq, rfl, hf⟩ := hr
    cases heq
    exact ⟨fts, bs, rfl, rfl, hf⟩

/-- Inversion of a represented field list at one key: the key is absent
from both sides, or present in both with corresponding values (whose
region `mid` sits between `pre` and `post`); in either case, writing
corresponding values at the key preserves the representation in any heap
that still agrees on the other fields' regions. -/
theorem reprFlds_keyCases :
    ∀ (fts : JsFields) (h : Heap) (flds : Fields) (as : List Nat) (k : String),
    ReprFlds h flds fts as →
    (getField flds k = none ∧ getFieldT fts k = none ∧
      ∀ (h2 : Heap) (w : JsVal) (u : JsTree) (bs : List Nat), ReprVal h2 w u bs →
        (∀ x ∈ as, h2.get x = h.get x) →
        ReprFlds h2 (setField flds k w) (setFieldT fts k u) (as ++ bs))
    ∨ (∃ v t pre mid post, getField flds k = some v ∧ getFieldT fts k = some t ∧
        ReprVal h v t mid ∧ as = pre ++ mid ++ post ∧
        ∀ (h2 : Heap) (w : JsVal) (u : JsTree) (bs : List Nat), ReprVal h2 w u bs →
          (∀ x ∈ pre ++ post, h2.get x = h.get x) →
          ReprFlds h2 (setField flds k w) (setFieldT fts k u) (pre ++ bs ++ post))
  | .nil, h, flds, as, k, hr => by
    simp only [ReprFlds] at hr
    obtain ⟨rfl, rfl⟩ := hr
    refine Or.inl ⟨rfl, rfl, fun h2 w u bs hw _ => ?_⟩
    have := reprFlds_cons h2 k w u [] .nil bs [] hw (reprFlds_nil h2)
    simpa only [setField, setFieldT, List.nil_append, List.append_nil] using this
  | .cons k0 t0 fts', h, flds, as, k, hr => by
    simp only [ReprFlds] at hr
    obtain ⟨v0, rest, as1, as2, rfl, rfl, hv0, hrest⟩ := hr
    by_cases hk : k0 = k
    · subst hk
      refine Or.inr ⟨v0, t0, [], as1, as2, by simp [getField], by simp [getFieldT], hv0,
        by simp, fun h2 w u bs hw hag => ?_⟩
      have hrest' := reprFlds_frame h h2 fts' rest as2 hrest
        (fun x hx => hag x (by simpa using hx))
      have := reprFlds_cons h2 k0 w u rest fts' bs as2 hw hrest'
      simpa only [setField, setFieldT, if_pos rfl, List.nil_append] using this
    · rcases reprFlds_keyCases fts' h rest as2 k hrest with
        ⟨hn1, hn2, hset⟩ | ⟨v, t, pre, mid, post, hg1, hg2, hvt, hsplit, hset⟩
      · refine Or.inl ⟨by simp [getField, hk, hn1], by simp [getFieldT, hk, hn2],
          fun h2 w u bs hw hag => ?_⟩
        have hv0' := reprVal_frame h h2 t0 v0 as1 hv0 (fun x hx => hag x (by simp [hx]))
        have hrest' := hset h2 w u bs hw (fun x hx => hag x (by simp [hx]))
        have := reprFlds_cons h2 k0 v0 t0 (setField rest k w) (setFieldT fts' k u)
          as1 (as2 ++ bs) hv0' hrest'
        simp only [setField, setFieldT, if_neg hk]
        simpa [List.append_assoc] using this
      · subst hsplit
        refine Or.inr ⟨v, t, as1 ++ pre, mid, post, by simp [getField, hk, hg1],
          by simp [getFieldT, hk, hg2], hvt, by simp [List.append_assoc],
          fun h2 w u bs hw hag => ?_⟩
        have hv0' := reprVal_frame h h2 t0 v0 as1 hv0
          (fun x hx => hag x (by simp [hx]))
        have hrest' := hset h2 w u bs hw
          (fun x hx => hag x (by simp only [List.mem_append] at hx ⊢; tauto))
        have := reprFlds_cons h2 k0 v0 t0 (setField rest k w) (setFieldT fts' k u)
          as1 (pre ++ bs ++ post) hv0' hrest'
        simp only [setField, setFieldT, if_neg hk]
        simpa [List.append_assoc] using this

/-! ### List bookkeeping lemmas -/

theorem nodup_replace_mid (t : Nat) (pre mid post mid' : List Nat) (n : Nat)
    (h1 : (t :: (pre ++ mid ++ post)).Nodup) (h2 : mid'.Nodup)
    (h3 : ∀ x ∈ mid', x ∈ mid ∨ n ≤ x) (h4 : Below n (t :: (pre ++ mid ++ post))) :
    (t :: (pre ++ mid' ++ post)).Nodup := by
  simp only [List.nodup_cons, List.nodup_append, List.mem_append, List.disjoint_left] at h1 ⊢
  obtain ⟨ht, ⟨hpre, hmid, hpm⟩, hpost, hmp⟩ := h1
  push_neg at ht
  obtain ⟨⟨ht1, ht2⟩, ht3⟩ := ht
  have hbt : t < n := h4 t (List.mem_cons_self _ _)
  have hbpre : ∀ x ∈ pre, x < n := fun x hx =>
    h4 x (List.mem_cons_of_mem _ (by simp [List.mem_append, hx]))
  have hbpost : ∀ x ∈ post, x < n := fun x hx =>
    h4 x (List.mem_cons_of_mem _ (by simp [List.mem_append, hx]))
  refine ⟨?_, ⟨hpre, h2, ?_⟩, hpost, ?_⟩
  · rintro ((hx | hx) | hx)
    · exact ht1 hx
    · rcases h3 t hx with hm | hge
      · exact ht2 hm
      · omega
    · exact ht3 hx
  · intro a ha ha2
    rcases h3 a ha2 with hm | hge
    · exact hpm ha hm
    · exact absurd (hbpre a ha) (by omega)
  · rintro a (ha | ha) ha2
    · exact hmp (Or.inl ha) ha2
    · rcases h3 a ha with hm | hge
      · exact hmp (Or.inr hm) ha2
      · exact absurd (hbpost a ha2) (by omega)

theorem mem_sides_not_mid (pre mid post : List Nat) (hnd : (pre ++ mid ++ post).Nodup) :
    ∀ x, x ∈ pre ++ post → x ∉ mid := by
  simp only [List.nodup_append, List.mem_append, List.disjoint_left] at hnd
  obtain ⟨⟨-, -, hpm⟩, -, hmp⟩ := hnd
  intro x hx hx2
  rcases List.mem_append.mp hx with hx | hx
  · exact hpm hx hx2
  · exact hmp (Or.inr hx2) hx

/-! ### Reduction lemmas for the deep-extend branches -/

theorem extendDeepVal_obj_reuse (h : Heap) (target : Nat) (name : String) (cfs : JsFields)
    (a : Nat) (hgf : getField (h.get target) name = some (.ref a)) :
    extendDeepVal h target name (.obj cfs) =
      (extendDeepFields h a cfs).set target
        (setField ((extendDeepFields h a cfs).get target) name (.ref a)) := by
  simp only [extendDeepVal, hgf]

theorem extendDeepVal_obj_fresh (h : Heap) (target : Nat) (name : String) (cfs : JsFields)
    (hgf : ∀ a, getField (h.get target) name ≠ some (.ref a)) :
    extendDeepVal h target name (.obj cfs) =
      (extendDeepFields (h.alloc1 []).1 h.next cfs).set target
        (setField ((extendDeepFields (h.alloc1 []).1 h.next cfs).get target) name
          (.ref h.next)) := by
  rcases hgf2 : getField (h.get target) name with _ | v
  · simp only [extendDeepVal, hgf2]
    simp [Heap.alloc1]
  · cases v with
    | prim p =>
      simp only [extendDeepVal, hgf2]
      simp [Heap.alloc1]
    | ref a => exact absurd hgf2 (hgf a)

mutual
theorem extendVal_good : ∀ (copy : JsTree) (h : Heap) (target : Nat) (name : String)
    (tfs : JsFields) (tas : List Nat),
    ReprVal h (.ref target) (.obj tfs) (target :: tas) →
    (target :: tas).Nodup → Below h.next (target :: tas) →
    ExtGood h target tas (extendDeepVal h target name copy)
      (setFieldT tfs name (mergeOne (getFieldT tfs name) copy))
  | .prim p, h, target, name, tfs, tas, hrep, hnd, hb => by
    have htne : target ∉ tas := (List.nodup_cons.mp hnd).1
    obtain ⟨-, hflds⟩ := reprVal_obj_elim h target tfs (target :: tas) hrep
    rw [mergeOne_prim]
    simp only [extendDeepVal]
    unfold ExtGood
    rcases reprFlds_keyCases tfs h (h.get target) tas name hflds with
      ⟨hgn, hgtn, hset⟩ | ⟨v, t, pre, mid, post, hgf, hgt, hvt, hsplit, hset⟩
    · have hagree : ∀ x ∈ tas,
          (h.set target (setField (h.get target) name (.prim p))).get x = h.get x :=
        fun x hx => heapGet_set_ne h target x _ (fun hxe => htne (hxe ▸ hx))
      have hnew := hset (h.set target (setField (h.get target) name (.prim p)))
        (.prim p) (.prim p) [] (by simp [ReprVal]) hagree
      rw [List.append_nil] at hnew
      refine ⟨le_refl _, ?_, tas, ?_, hnd, hb, fun x hx => Or.inl hx⟩
      · intro b hbm _
        exact heapGet_set_ne h target b _ (fun hbe => hbm (by simp [hbe]))
      · exact reprVal_ref_obj _ target _ tas (by rw [heapGet_set_self]; exact hnew)
    · subst hsplit
      have hside : ∀ x ∈ pre ++ post, x ∈ pre ++ mid ++ post := fun x hx => by
        simp only [List.mem_append] at hx ⊢
        tauto
      have hagree : ∀ x ∈ pre ++ post,
          (h.set target (setField (h.get target) name (.prim p))).get x = h.get x :=
        fun x hx => heapGet_set_ne h target x _ (fun hxe => htne (hxe ▸ hside x hx))
      have hnew := hset (h.set target (setField (h.get target) name (.prim p)))
        (.prim p) (.prim p) [] (by simp [ReprVal]) hagree
      refine ⟨le_refl _, ?_, pre ++ [] ++ post, ?_, ?_, ?_, ?_⟩
      · intro b hbm _
        exact heapGet_set_ne h target b _ (fun hbe => hbm (by simp [hbe]))
      · exact reprVal_ref_obj _ target _ _ (by rw [heapGet_set_self]; exact hnew)
      · exact nodup_replace_mid target pre mid post [] h.next hnd (by simp) (by simp) hb
      · intro x hx
        exact hb x (by simp only [List.mem_cons, List.mem_append] at hx ⊢; tauto)
      · intro x hx
        refine Or.inl ?_
        simp only [List.mem_append] at hx ⊢
        tauto
  | .obj cfs, h, target, name, tfs, tas, hrep, hnd, hb => by
    have htne : target ∉ tas := (List.nodup_cons.mp hnd).1
    have htlt : target < h.next := hb target (List.mem_cons_self _ _)
    obtain ⟨-, hflds⟩ := reprVal_obj_elim h target tfs (target :: tas) hrep
    rcases reprFlds_keyCases tfs h (h.get target) tas name hflds with
      ⟨hgn, hgtn, hset⟩ | ⟨v, t, pre, mid, post, hgf, hgt, hvt, hsplit, hset⟩
    · -- key absent in the target: clone into a fresh empty object
      rw [hgtn, mergeOne_none_obj,
        extendDeepVal_obj_fresh h target name cfs (fun a hgf2 => by rw [hgn] at hgf2; cases hgf2)]
      have hga : ((h.alloc1 []).1).get h.next = [] := heapGet_alloc1_self h []
      have rep0 : ReprVal (h.alloc1 []).1 (.ref h.next) (.obj .nil) [h.next] :=
        reprVal_ref_obj _ h.next .nil [] (by rw [hga]; exact reprFlds_nil _)
      obtain ⟨mono1, frame1, asub', rep1, nd1, bel1, sub1⟩ :=
        extendFields_good cfs (h.alloc1 []).1 h.next .nil [] rep0 (by simp)
          (fun x hx => by
            simp only [List.mem_cons, List.not_mem_nil, or_false] at hx
            subst hx
            show h.next < h.next + 1
            omega)
      set h1 := extendDeepFields (h.alloc1 []).1 h.next cfs with hh1
      have hmono1 : h.next + 1 ≤ h1.next := mono1
      have hT : h1.get target = h.get target := by
        rw [frame1 target (by intro hmem; simp at hmem; omega)
          (by show target < h.next + 1; omega)]
        exact heapGet_alloc1_ne h [] target (by omega)
      have hmem_ne_target : ∀ x ∈ h.next :: asub', x ≠ target := by
        intro x hx hxe
        rcases List.mem_cons.mp hx with heq | hx2
        · rw [hxe] at heq
          omega
        · rcases sub1 x hx2 with h0 | hge
          · simp at h0
          · rw [hxe] at hge
            have : h.next + 1 ≤ target := hge
            omega
      rw [hT]
      have hagree_tas : ∀ x ∈ tas,
          (h1.set target (setField (h.get target) name (.ref h.next))).get x = h.get x := by
        intro x hx
        have hxlt : x < h.next := hb x (List.mem_cons_of_mem _ hx)
        have hxt : x ≠ target := fun hxe => htne (hxe ▸ hx)
        have e1 := heapGet_set_ne h1 target x (setField (h.get target) name (.ref h.next)) hxt
        have e2 := frame1 x (by intro hmem; simp at hmem; omega)
          (by show x < h.next + 1; omega)
        have e3 := heapGet_alloc1_ne h [] x (by omega)
        rw [e1, e2, e3]
      have rep1' := reprVal_frame h1 (h1.set target (setField (h.get target) name (.ref h.next)))
        (.obj (mergeTreeFields .nil cfs)) (.ref h.next) (h.next :: asub') rep1
        (fun x hx => heapGet_set_ne h1 target x _ (hmem_ne_target x hx))
      have hnewfld := hset (h1.set target (setField (h.get target) name (.ref h.next)))
        (.ref h.next) (.obj (mergeTreeFields .nil cfs)) (h.next :: asub') rep1' hagree_tas
      unfold ExtGood
      refine ⟨?_, ?_, tas ++ (h.next :: asub'), ?_, ?_, ?_, ?_⟩
      · show h.next ≤ h1.next
        omega
      · intro b hbm hblt
        have hbt : b ≠ target := fun hbe => hbm (by simp [hbe])
        have e1 := heapGet_set_ne h1 target b (setField (h.get target) name (.ref h.next)) hbt
        have e2 := frame1 b (by intro hmem; simp at hmem; omega)
          (by show b < h.next + 1; omega)
        have e3 := heapGet_alloc1_ne h [] b (by omega)
        rw [e1, e2, e3]
      · refine reprVal_ref_obj _ target _ _ ?_
        rw [heapGet_set_self]
        exact hnewfld
      · have hnd2 := nodup_replace_mid target tas [] [] (h.next :: asub') h.next
          (by simpa using hnd) nd1
          (fun x hx => by
            rcases List.mem_cons.mp hx with rfl | hx2
            · exact Or.inr (le_refl _)
            · rcases sub1 x hx2 with h0 | hge
              · simp at h0
              · exact Or.inr (by have : h.next + 1 ≤ x := hge; omega))
          (fun x hx => hb x (by simpa using hx))
        simpa using hnd2
      · intro x hx
        show x < h1.next
        rcases List.mem_cons.mp hx with rfl | hx2
        · omega
        · rcases List.mem_append.mp hx2 with hx3 | hx3
          · have : x < h.next := hb x (List.mem_cons_of_mem _ hx3)
            omega
          · exact bel1 x hx3
      · intro x hx
        rcases List.mem_append.mp hx with hx2 | hx2
        · exact Or.inl hx2
        · rcases List.mem_cons.mp hx2 with rfl | hx3
          · exact Or.inr (le_refl _)
          · rcases sub1 x hx3 with h0 | hge
            · simp at h0
            · exact Or.inr (by have : h.next + 1 ≤ x := hge; omega)
    · cases v with
      | prim q =>
        -- key present but not a plain object: clone into a fresh empty object
        obtain ⟨rfl, rfl⟩ : t = .prim q ∧ mid = [] := reprVal_val_prim h q t mid hvt
        subst hsplit
        rw [hgt, mergeOne_prim_obj,
          extendDeepVal_obj_fresh h target name cfs (fun a hgf2 => by rw [hgf] at hgf2; simp at hgf2)]
        have hga : ((h.alloc1 []).1).get h.next = [] := heapGet_alloc1_self h []
        have rep0 : ReprVal (h.alloc1 []).1 (.ref h.next) (.obj .nil) [h.next] :=
          reprVal_ref_obj _ h.next .nil [] (by rw [hga]; exact reprFlds_nil _)
        obtain ⟨mono1, frame1, asub', rep1, nd1, bel1, sub1⟩ :=
          extendFields_good cfs (h.alloc1 []).1 h.next .nil [] rep0 (by simp)
            (fun x hx => by
              simp only [List.mem_cons, List.not_mem_nil, or_false] at hx
              subst hx
              show h.next < h.next + 1
              omega)
        set h1 := extendDeepFields (h.alloc1 []).1 h.next cfs with hh1
        have hmono1 : h.next + 1 ≤ h1.next := mono1
        have hT : h1.get target = h.get target := by
          rw [frame1 target (by intro hmem; simp at hmem; omega)
            (by show target < h.next + 1; omega)]
          exact heapGet_alloc1_ne h [] target (by omega)
        have hmem_ne_target : ∀ x ∈ h.next :: asub', x ≠ target := by
          intro x hx hxe
          rcases List.mem_cons.mp hx with heq | hx2
          · rw [hxe] at heq
            omega
          · rcases sub1 x hx2 with h0 | hge
            · simp at h0
            · rw [hxe] at hge
              have : h.next + 1 ≤ target := hge
              omega
        have hside : ∀ x ∈ pre ++ post, x ∈ pre ++ [] ++ post := fun x hx => by
          simp only [List.mem_append] at hx ⊢
          tauto
        rw [hT]
        have hagree_side : ∀ x ∈ pre ++ post,
            (h1.set target (setField (h.get target) name (.ref h.next))).get x = h.get x := by
          intro x hx
          have hxlt : x < h.next := hb x (List.mem_cons_of_mem _ (hside x hx))
          have hxt : x ≠ target := fun hxe => htne (hxe ▸ hside x hx)
          have e1 := heapGet_set_ne h1 target x (setField (h.get target) name (.ref h.next)) hxt
          have e2 := frame1 x (by intro hmem; simp at hmem; omega)
            (by show x < h.next + 1; omega)
          have e3 := heapGet_alloc1_ne h [] x (by omega)
          rw [e1, e2, e3]
        have rep1' := reprVal_frame h1
          (h1.set target (setField (h.get target) name (.ref h.next)))
          (.obj (mergeTreeFields .nil cfs)) (.ref h.next) (h.next :: asub') rep1
          (fun x hx => heapGet_set_ne h1 target x _ (hmem_ne_target x hx))
        have hnewfld := hset (h1.set target (setField (h.get target) name (.ref h.next)))
          (.ref h.next) (.obj (mergeTreeFields .nil cfs)) (h.next :: asub') rep1' hagree_side
        unfold ExtGood
        refine ⟨?_, ?_, pre ++ (h.next :: asub') ++ post, ?_, ?_, ?_, ?_⟩
        · show h.next ≤ h1.next
          omega
        · intro b hbm hblt
          have hbt : b ≠ target := fun hbe => hbm (by simp [hbe])
          have e1 := heapGet_set_ne h1 target b (setField (h.get target) name (.ref h.next)) hbt
          have e2 := frame1 b (by intro hmem; simp at hmem; omega)
            (by show b < h.next + 1; omega)
          have e3 := heapGet_alloc1_ne h [] b (by omega)
          rw [e1, e2, e3]
        · refine reprVal_ref_obj _ target _ _ ?_
          rw [heapGet_set_self]
          exact hnewfld
        · refine nodup_replace_mid target pre [] post (h.next :: asub') h.next hnd nd1
            ?_ hb
          intro x hx
          rcases List.mem_cons.mp hx with rfl | hx2
          · exact Or.inr (le_refl _)
          · rcases sub1 x hx2 with h0 | hge
            · simp at h0
            · exact Or.inr (by have : h.next + 1 ≤ x := hge; omega)
        · intro x hx
          show x < h1.next
          rcases List.mem_cons.mp hx with rfl | hx2
          · omega
          · rcases List.mem_append.mp hx2 with hx3 | hx3
            · rcases List.mem_append.mp hx3 with hx4 | hx4
              · have : x < h.next :=
                  hb x (List.mem_cons_of_mem _ (by simp only [List.mem_append]; tauto))
                omega
              · exact bel1 x hx4
            · have : x < h.next :=
                hb x (List.mem_cons_of_mem _ (by simp only [List.mem_append]; tauto))
              omega
        · intro x hx
          rcases List.mem_append.mp hx with hx3 | hx3
          · rcases List.mem_append.mp hx3 with hx4 | hx4
            · exact Or.inl (by simp only [List.mem_append]; tauto)
            · rcases List.mem_cons.mp hx4 with rfl | hx5
              · exact Or.inr (le_refl _)
              · rcases sub1 x hx5 with h0 | hge
                · simp at h0
                · exact Or.inr (by have : h.next + 1 ≤ x := hge; omega)
          · exact Or.inl (by simp only [List.mem_append]; tauto)
      | ref a =>
        -- key present and a plain object: extend the existing object in place
        obtain ⟨afs, asub, rfl, rfl, hflds_a⟩ := reprVal_val_ref h a t mid hvt
        subst hsplit
        rw [hgt, mergeOne_obj_obj, extendDeepVal_obj_reuse h target name cfs a hgf]
        have hmid_mem : ∀ x, x ∈ a :: asub → x ∈ pre ++ (a :: asub) ++ post := fun x hx => by
          simp only [List.mem_append]
          tauto
        have hand : (pre ++ (a :: asub) ++ post).Nodup := (List.nodup_cons.mp hnd).2
        have hsub_mid : (a :: asub).Nodup :=
          ((List.sublist_append_right pre (a :: asub)).trans
            (List.sublist_append_left (pre ++ (a :: asub)) post)).nodup hand
        have hbel_mid : Below h.next (a :: asub) := fun x hx =>
          hb x (List.mem_cons_of_mem _ (hmid_mem x hx))
        have rep_a : ReprVal h (.ref a) (.obj afs) (a :: asub) :=
          reprVal_ref_obj h a afs asub hflds_a
        obtain ⟨mono1, frame1, asub', rep1, nd1, bel1, bsub1⟩ :=
          extendFields_good cfs h a afs asub rep_a hsub_mid hbel_mid
        set h1 := extendDeepFields h a cfs with hh1
        have hta : target ∉ a :: asub := fun hmem => htne (hmid_mem target hmem)
        have hT : h1.get target = h.get target := frame1 target hta htlt
        rw [hT]
        have hsides := mem_sides_not_mid pre (a :: asub) post hand
        have hmem_ne_target2 : ∀ x ∈ a :: asub', x ≠ target := by
          intro x hx hxe
          rcases List.mem_cons.mp hx with heq | hx2
          · exact htne (by rw [← hxe, heq]; exact hmid_mem a (by simp))
          · rcases bsub1 x hx2 with hin | hge
            · exact htne (by rw [← hxe]; exact hmid_mem x (List.mem_cons_of_mem _ hin))
            · rw [hxe] at hge
              omega
        have hagree_side : ∀ x ∈ pre ++ post,
            (h1.set target (setField (h.get target) name (.ref a))).get x = h.get x := by
          intro x hx
          have hx' : x ∈ pre ++ (a :: asub) ++ post := by
            simp only [List.mem_append] at hx ⊢
            tauto
          have hxt : x ≠ target := fun hxe => htne (hxe ▸ hx')
          have hxnotmid : x ∉ a :: asub := hsides x hx
          have hxlt : x < h.next := hb x (List.mem_cons_of_mem _ hx')
          rw [heapGet_set_ne h1 target x _ hxt, frame1 x hxnotmid hxlt]
        have rep1' := reprVal_frame h1 (h1.set target (setField (h.get target) name (.ref a)))
          (.obj (mergeTreeFields afs cfs)) (.ref a) (a :: asub') rep1
          (fun x hx => heapGet_set_ne h1 target x _ (hmem_ne_target2 x hx))
        have hnewfld := hset (h1.set target (setField (h.get target) name (.ref a)))
          (.ref a) (.obj (mergeTreeFields afs cfs)) (a :: asub') rep1' hagree_side
        have hmono1 : h.next ≤ h1.next := mono1
        unfold ExtGood
        refine ⟨?_, ?_, pre ++ (a :: asub') ++ post, ?_, ?_, ?_, ?_⟩
        · show h.next ≤ h1.next
          omega
        · intro b hbm hblt
          have hbt : b ≠ target := fun hbe => hbm (by simp [hbe])
          have hbnot : b ∉ a :: asub := fun hmem =>
            hbm (List.mem_cons_of_mem _ (hmid_mem b hmem))
          rw [heapGet_set_ne h1 target b _ hbt, frame1 b hbnot hblt]
        · refine reprVal_ref_obj _ target _ _ ?_
          rw [heapGet_set_self]
          exact hnewfld
        · refine nodup_replace_mid target pre (a :: asub) post (a :: asub') h.next hnd nd1 ?_ hb
          intro x hx
          rcases List.mem_cons.mp hx with rfl | hx2
          · exact Or.inl (by simp)
          · rcases bsub1 x hx2 with hin | hge
            · exact Or.inl (List.mem_cons_of_mem _ hin)
            · exact Or.inr hge
        · intro x hx
          show x < h1.next
          rcases List.mem_cons.mp hx with rfl | hx2
          · omega
          · rcases List.mem_append.mp hx2 with hx3 | hx3
            · rcases List.mem_append.mp hx3 with hx4 | hx4
              · have : x < h.next :=
                  hb x (List.mem_cons_of_mem _ (by simp only [List.mem_append]; tauto))
                omega
              · exact bel1 x hx4
            · have : x < h.next :=
                hb x (List.mem_cons_of_mem _ (by simp only [List.mem_append]; tauto))
              omega
        · intro x hx
          rcases List.mem_append.mp hx with hx3 | hx3
          · rcases List.mem_append.mp hx3 with hx4 | hx4
            · exact Or.inl (by simp only [List.mem_append]; tauto)
            · rcases List.mem_cons.mp hx4 with rfl | hx5
              · exact Or.inl (hmid_mem x (by simp))
              · rcases bsub1 x hx5 with hin | hge
                · exact Or.inl (hmid_mem x (List.mem_cons_of_mem _ hin))
                · exact Or.inr hge
          · exact Or.inl (by simp only [List.mem_append]; tauto)
theorem extendFields_good : ∀ (cfs : JsFields) (h : Heap) (target : Nat)
    (tfs : JsFields) (tas : List Nat),
    ReprVal h (.ref target) (.obj tfs) (target :: tas) →
    (target :: tas).Nodup → Below h.next (target :: tas) →
    ExtGood h target tas (extendDeepFields h target cfs) (mergeTreeFields tfs cfs)
  | .nil, h, target, tfs, tas, hrep, hnd, hb => by
    unfold ExtGood
    exact ⟨le_refl _, fun _ _ _ => rfl, tas, hrep, hnd, hb, fun _ hx => Or.inl hx⟩
  | .cons name copy rest, h, target, tfs, tas, hrep, hnd, hb => by
    obtain ⟨mono1, frame1, tas1, rep1, nd1, bel1, sub1⟩ :=
      extendVal_good copy h target name tfs tas hrep hnd hb
    obtain ⟨mono2, frame2, tas2, rep2, nd2, bel2, sub2⟩ :=
      extendFields_good rest (extendDeepVal h target name copy) target
        (setFieldT tfs name (mergeOne (getFieldT tfs name) copy)) tas1 rep1 nd1 bel1
    unfold ExtGood
    simp only [extendDeepFields, mergeTreeFields]
    refine ⟨le_trans mono1 mono2, ?_, tas2, rep2, nd2, bel2, ?_⟩
    · intro b hbm hblt
      have hb1 : b ∉ target :: tas1 := by
        intro hmem
        rcases List.mem_cons.mp hmem with hbt | hbtas1
        · exact hbm (by simp [hbt])
        · rcases sub1 b hbtas1 with hin | hge
          · exact hbm (List.mem_cons_of_mem _ hin)
          · omega
      rw [frame2 b hb1 (lt_of_lt_of_le hblt mono1), frame1 b hbm hblt]
    · intro x hx
      rcases sub2 x hx with h1 | h2
      · rcases sub1 x h1 with h3 | h4
        · exact Or.inl h3
        · exact Or.inr h4
      · exact Or.inr (le_trans mono1 h2)
end

/-! ### Allocation of literals is correctly represented -/

mutual
theorem allocTree_good : ∀ (t : JsTree) (h h' : Heap) (v : JsVal),
    allocTree h t = (h', v) →
    ∃ as, ReprVal h' v t as ∧ as.Nodup ∧
      (∀ x ∈ as, h.next ≤ x ∧ x < h'.next) ∧ h.next ≤ h'.next ∧
      ∀ b, b < h.next → h'.get b = h.get b
  | .prim p, h, h', v, heq => by
    simp only [allocTree, Prod.mk.injEq] at heq
    obtain ⟨rfl, rfl⟩ := heq
    exact ⟨[], by simp [ReprVal], by simp, by simp, le_refl _, fun b _ => rfl⟩
  | .obj fs, h, h', v, heq => by
    rcases hfs : allocFields h fs with ⟨h1, fvs⟩
    obtain ⟨as, hrep, hnd, hbounds, hmono, hframe⟩ := allocFields_good fs h h1 fvs hfs
    simp only [allocTree, hfs, Prod.mk.injEq] at heq
    obtain ⟨rfl, rfl⟩ := heq
    rw [heapAlloc1_snd, heapAlloc1_next]
    refine ⟨h1.next :: as, ?_, ?_, ?_, by omega, ?_⟩
    · refine reprVal_ref_obj _ h1.next fs as ?_
      rw [heapGet_alloc1_self h1 fvs]
      refine reprFlds_frame h1 _ fs fvs as hrep ?_
      intro x hx
      exact heapGet_alloc1_ne h1 fvs x (by have := (hbounds x hx).2; omega)
    · refine List.nodup_cons.mpr ⟨?_, hnd⟩
      intro hmem
      have := (hbounds h1.next hmem).2
      omega
    · intro x hx
      rcases List.mem_cons.mp hx with rfl | hx2
      · exact ⟨hmono, by omega⟩
      · obtain ⟨hge, hlt⟩ := hbounds x hx2
        exact ⟨hge, by omega⟩
    · intro b hblt
      rw [heapGet_alloc1_ne h1 fvs b (by omega), hframe b hblt]
theorem allocFields_good : ∀ (fs : JsFields) (h h' : Heap) (flds : Fields),
    allocFields h fs = (h', flds) →
    ∃ as, ReprFlds h' flds fs as ∧ as.Nodup ∧
      (∀ x ∈ as, h.next ≤ x ∧ x < h'.next) ∧ h.next ≤ h'.next ∧
      ∀ b, b < h.next → h'.get b = h.get b
  | .nil, h, h', flds, heq => by
    simp only [allocFields, Prod.mk.injEq] at heq
    obtain ⟨rfl, rfl⟩ := heq
    exact ⟨[], reprFlds_nil h, by simp, by simp, le_refl _, fun b _ => rfl⟩
  | .cons k t rest, h, h', flds, heq => by
    rcases ht : allocTree h t with ⟨h1, v1⟩
    rcases hrest : allocFields h1 rest with ⟨h2, vs⟩
    obtain ⟨as1, hrep1, hnd1, hb1, hm1, hf1⟩ := allocTree_good t h h1 v1 ht
    obtain ⟨as2, hrep2, hnd2, hb2, hm2, hf2⟩ := allocFields_good rest h1 h2 vs hrest
    simp only [allocFields, ht, hrest, Prod.mk.injEq] at heq
    obtain ⟨rfl, rfl⟩ := heq
    refine ⟨as1 ++ as2, ?_, ?_, ?_, by omega, ?_⟩
    · refine reprFlds_cons h2 k v1 t vs rest as1 as2 ?_ hrep2
      exact reprVal_frame h1 h2 t v1 as1 hrep1
        (fun x hx => hf2 x (by have := (hb1 x hx).2; omega))
    · refine List.nodup_append.mpr ⟨hnd1, hnd2, ?_⟩
      intro x hx1 hx2
      have := (hb1 x hx1).2
      have := (hb2 x hx2).1
      omega
    · intro x hx
      rcases List.mem_append.mp hx with hx1 | hx1
      · obtain ⟨hge, hlt⟩ := hb1 x hx1
        exact ⟨hge, by omega⟩
      · obtain ⟨hge, hlt⟩ := hb2 x hx1
        exact ⟨by omega, hlt⟩
    · intro b hblt
      rw [hf2 b (by omega), hf1 b hblt]
end

/-- Source line 105, `$.extend(true, $.extend({ }, pluginDef.defaults), config)`:
in any heap in which the defaults object is exclusively represented, the
constructed config value represents the specification-side deep merge of
the defaults' literal and the caller configuration, the heap's `next` only
grows, and both the defaults object's own property list and every object
outside the defaults' region keep their contents. -/
theorem pluginConfig_good (h : Heap) (defaults : JsVal) (dts : JsFields) (das : List Nat)
    (config : Option JsTree)
    (hrep : ReprVal h defaults (.obj dts) das) (hnd : das.Nodup) (hbel : Below h.next das) :
    ∃ as, ReprVal (pluginConfig h defaults config).1 (pluginConfig h defaults config).2
        (.obj (mergeTreeFields dts (effectiveConfig config))) as ∧
      h.next ≤ (pluginConfig h defaults config).1.next ∧
      (∀ b, b ∉ das → b < h.next → (pluginConfig h defaults config).1.get b = h.get b) ∧
      (∀ aD, defaults = .ref aD → (pluginConfig h defaults config).1.get aD = h.get aD) := by
  obtain ⟨aD, rfl⟩ : ∃ aD, defaults = .ref aD := by
    cases defaults with
    | prim p =>
      exfalso
      simp only [ReprVal] at hrep
      obtain ⟨a, bs, heq, -, -⟩ := hrep
      cases heq
    | ref aD => exact ⟨aD, rfl⟩
  obtain ⟨dts', dsub, hteq, rfl, hflds⟩ := reprVal_val_ref h aD (.obj dts) das hrep
  cases hteq
  have haD : aD < h.next := hbel aD (by simp)
  have hndsub : dsub.Nodup := (List.nodup_cons.mp hnd).2
  have haDn : aD ∉ dsub := (List.nodup_cons.mp hnd).1
  have hbelsub : Below h.next dsub := fun x hx => hbel x (by simp [hx])
  have hgc : (h.alloc1 (h.get aD)).1.get h.next = h.get aD := heapGet_alloc1_self h _
  have hfr : ReprFlds (h.alloc1 (h.get aD)).1 (h.get aD) dts dsub :=
    reprFlds_frame h _ dts (h.get aD) dsub hflds
      (fun x hx => heapGet_alloc1_ne h _ x (by have := hbelsub x hx; omega))
  have repc : ReprVal (h.alloc1 (h.get aD)).1 (.ref h.next) (.obj dts) (h.next :: dsub) :=
    reprVal_ref_obj _ h.next dts dsub (by rw [hgc]; exact hfr)
  have hndc : (h.next :: dsub).Nodup :=
    List.nodup_cons.mpr ⟨fun hmem => by have := hbelsub _ hmem; omega, hndsub⟩
  have hbelc : Below (h.alloc1 (h.get aD)).1.next (h.next :: dsub) := by
    intro x hx
    rw [heapAlloc1_next]
    rcases List.mem_cons.mp hx with rfl | hx2
    · omega
    · have := hbelsub x hx2
      omega
  cases config with
  | none =>
    simp only [pluginConfig, shallowCopyVal]
    rw [heapAlloc1_snd, heapAlloc1_next]
    refine ⟨h.next :: dsub, repc, by omega, ?_, ?_⟩
    · intro b hbm hblt
      exact heapGet_alloc1_ne h _ b (by omega)
    · intro aD' heq
      cases heq
      exact heapGet_alloc1_ne h _ aD (by omega)
  | some t =>
    cases t with
    | prim q =>
      simp only [pluginConfig, shallowCopyVal]
      rw [heapAlloc1_snd, heapAlloc1_next]
      refine ⟨h.next :: dsub, repc, by omega, ?_, ?_⟩
      · intro b hbm hblt
        exact heapGet_alloc1_ne h _ b (by omega)
      · intro aD' heq
        cases heq
        exact heapGet_alloc1_ne h _ aD (by omega)
    | obj cfs =>
      obtain ⟨mono1, frame1, tas', rep1, nd1, bel1, sub1⟩ :=
        extendFields_good cfs (h.alloc1 (h.get aD)).1 h.next dts dsub repc hndc hbelc
      have hm1 : (h.alloc1 (h.get aD)).1.next = h.next + 1 := heapAlloc1_next h _
      simp only [pluginConfig, shallowCopyVal]
      rw [heapAlloc1_snd]
      refine ⟨h.next :: tas', rep1, by omega, ?_, ?_⟩
      · intro b hbm hblt
        have hb1 : b ∉ h.next :: dsub := by
          intro hmem
          rcases List.mem_cons.mp hmem with rfl | hmem2
          · omega
          · exact hbm (List.mem_cons_of_mem _ hmem2)
        rw [frame1 b hb1 (by omega)]
        exact heapGet_alloc1_ne h _ b (by omega)
      · intro aD' heq
        cases heq
        have hb1 : aD ∉ h.next :: dsub := by
          intro hmem
          rcases List.mem_cons.mp hmem with heq2 | hmem2
          · omega
          · exact haDn hmem2
        rw [frame1 aD hb1 (by omega)]
        exact heapGet_alloc1_ne h _ aD (by omega)

/-! ### Characterizations of the lifecycle operations -/

theorem instBind_err (st : JQState) (self : InstView) (hd : HandlerDef)
    (hsf : strFalsy (getValue self hd.eventName) = true) :
    instBind st self hd = .error errEventName := by
  simp [instBind, hsf]

theorem instUnbind_err (st : JQState) (self : InstView) (hd : HandlerDef)
    (hsf : strFalsy (getValue self hd.eventName) = true) :
    instUnbind st self hd = .error errEventName := by
  simp [instUnbind, hsf]

theorem instTrigger_err (st : JQState) (self : InstView) (hd : HandlerDef)
    (hsf : strFalsy (getValue self hd.eventName) = true) :
    instTrigger st self hd = .error errEventName := by
  simp [instTrigger, hsf]

theorem instBind_ok (st : JQState) (self : InstView) (hd : HandlerDef)
    (hsf : strFalsy (getValue self hd.eventName) = false) :
    instBind st self hd = .ok { st with
      bindings := st.bindings ++
        [{ target := (getValue self hd.target).getD self.element,
           fullEventName := (getValue self hd.eventName).getD "" ++ "." ++ self.pluginName,
           selector := getValue self hd.selector,
           handler := hd.handler, id := st.nextBindingId }],
      nextBindingId := st.nextBindingId + 1 } := by
  simp [instBind, hsf]

theorem instUnbind_ok (st : JQState) (self : InstView) (hd : HandlerDef)
    (hsf : strFalsy (getValue self hd.eventName) = false) :
    instUnbind st self hd = .ok { st with
      bindings := st.bindings.filter
        (fun b => !(unbindMatches ((getValue self hd.target).getD self.element)
          ((getValue self hd.eventName).getD "" ++ "." ++ self.pluginName)
          (getValue self hd.selector) b)) } := by
  simp [instUnbind, hsf]

theorem instTrigger_ok (st : JQState) (self : InstView) (hd : HandlerDef)
    (hsf : strFalsy (getValue self hd.eventName) = false) :
    instTrigger st self hd = .ok (st.bindings.filter
      (fun b => b.target == (getValue self hd.target).getD self.element &&
        b.fullEventName == (getValue self hd.eventName).getD "" ++ "." ++ self.pluginName)) := by
  simp [instTrigger, hsf]

theorem instBind_inv (st : JQState) (self : InstView) (hd : HandlerDef) (st' : JQState)
    (hok : instBind st self hd = .ok st') :
    strFalsy (getValue self hd.eventName) = false ∧
    st' = { st with
      bindings := st.bindings ++
        [{ target := (getValue self hd.target).getD self.element,
           fullEventName := (getValue self hd.eventName).getD "" ++ "." ++ self.pluginName,
           selector := getValue self hd.selector,
           handler := hd.handler, id := st.nextBindingId }],
      nextBindingId := st.nextBindingId + 1 } := by
  by_cases hsf : strFalsy (getValue self hd.eventName) = true
  · rw [instBind_err st self hd hsf] at hok
    cases hok
  · have hsf' : strFalsy (getValue self hd.eventName) = false := by
      simpa using hsf
    rw [instBind_ok st self hd hsf'] at hok
    simp only [Except.ok.injEq] at hok
    exact ⟨hsf', hok.symm⟩

theorem instUnbind_inv (st : JQState) (self : InstView) (hd : HandlerDef) (st' : JQState)
    (hok : instUnbind st self hd = .ok st') :
    strFalsy (getValue self hd.eventName) = false ∧
    st' = { st with
      bindings := st.bindings.filter
        (fun b => !(unbindMatches ((getValue self hd.target).getD self.element)
          ((getValue self hd.eventName).getD "" ++ "." ++ self.pluginName)
          (getValue self hd.selector) b)) } := by
  by_cases hsf : strFalsy (getValue self hd.eventName) = true
  · rw [instUnbind_err st self hd hsf] at hok
    cases hok
  · have hsf' : strFalsy (getValue self hd.eventName) = false := by
      simpa using hsf
    rw [instUnbind_ok st self hd hsf'] at hok
    simp only [Except.ok.injEq] at hok
    exact ⟨hsf', hok.symm⟩

theorem instTrigger_inv (st : JQState) (self : InstView) (hd : HandlerDef) (l : List Binding)
    (hok : instTrigger st self hd = .ok l) :
    strFalsy (getValue self hd.eventName) = false ∧
    l = st.bindings.filter
      (fun b => b.target == (getValue self hd.target).getD self.element &&
        b.fullEventName == (getValue self hd.eventName).getD "" ++ "." ++ self.pluginName) := by
  by_cases hsf : strFalsy (getValue self hd.eventName) = true
  · rw [instTrigger_err st self hd hsf] at hok
    cases hok
  · have hsf' : strFalsy (getValue self hd.eventName) = false := by
      simpa using hsf
    rw [instTrigger_ok st self hd hsf'] at hok
    simp only [Except.ok.injEq] at hok
    exact ⟨hsf', hok.symm⟩

theorem bindAll_frames (self : InstView) : ∀ (hds : List HandlerDef) (st st' : JQState),
    bindAll st self hds = .ok st' →
    st'.heap = st.heap ∧ st'.store = st.store ∧ st'.nextInstId = st.nextInstId ∧
    st'.elements = st.elements ∧ st.nextBindingId ≤ st'.nextBindingId
  | [], st, st', hok => by
    simp only [bindAll, Except.ok.injEq] at hok
    subst hok
    exact ⟨rfl, rfl, rfl, rfl, le_refl _⟩
  | hd :: rest, st, st', hok => by
    simp only [bindAll] at hok
    rcases hib : instBind st self hd with msg | stm
    · rw [hib] at hok
      cases hok
    · rw [hib] at hok
      obtain ⟨e1, e2, e3, e4, e5⟩ := bindAll_frames self rest stm st' hok
      obtain ⟨-, rfl⟩ := instBind_inv st self hd stm hib
      exact ⟨e1, e2, e3, e4, by simp at e5 ⊢; omega⟩

theorem bindAll_resolves (self : InstView) : ∀ (hds : List HandlerDef) (st st' : JQState),
    bindAll st self hds = .ok st' →
    ∀ hd ∈ hds, strFalsy (getValue self hd.eventName) = false
  | [], _, _, _ => by simp
  | hd :: rest, st, st', hok => by
    simp only [bindAll] at hok
    rcases hib : instBind st self hd with msg | stm
    · rw [hib] at hok
      cases hok
    · rw [hib] at hok
      intro hd2 hmem
      rcases List.mem_cons.mp hmem with rfl | hmem2
      · exact (instBind_inv st self hd2 stm hib).1
      · exact bindAll_resolves self rest stm st' hok hd2 hmem2

theorem bindAll_adds (self : InstView) : ∀ (hds : List HandlerDef) (st st' : JQState),
    bindAll st self hds = .ok st' →
    ∀ b ∈ st'.bindings, b ∈ st.bindings ∨
      (st.nextBindingId ≤ b.id ∧ matchesAny self hds b = true)
  | [], st, st', hok => by
    simp only [bindAll, Except.ok.injEq] at hok
    subst hok
    exact fun b hb => Or.inl hb
  | hd :: rest, st, st', hok => by
    simp only [bindAll] at hok
    rcases hib : instBind st self hd with msg | stm
    · rw [hib] at hok
      cases hok
    · rw [hib] at hok
      intro b hb
      obtain ⟨-, rfl⟩ := instBind_inv st self hd stm hib
      rcases bindAll_adds self rest _ st' hok b hb with hmem | ⟨hge, hmatch⟩
      · simp only [List.mem_append, List.mem_singleton] at hmem
        rcases hmem with hmem | rfl
        · exact Or.inl hmem
        · refine Or.inr ⟨le_refl _, ?_⟩
          simp only [matchesAny, List.any_cons, Bool.or_eq_true]
          exact Or.inl (by simp [unbindMatches])
      · refine Or.inr ⟨by simp at hge; omega, ?_⟩
        simp only [matchesAny, List.any_cons, Bool.or_eq_true]
        exact Or.inr hmatch

theorem unbindAll_ok (self : InstView) : ∀ (hds : List HandlerDef) (st : JQState),
    (∀ hd ∈ hds, strFalsy (getValue self hd.eventName) = false) →
    ∃ st', unbindAll st self hds = .ok st' ∧
      st'.bindings = st.bindings.filter (fun b => !(matchesAny self hds b)) ∧
      st'.heap = st.heap ∧ st'.store = st.store ∧ st'.elements = st.elements ∧
      st'.nextBindingId = st.nextBindingId ∧ st'.nextInstId = st.nextInstId
  | [], st, _ => ⟨st, rfl, by simp [matchesAny], rfl, rfl, rfl, rfl, rfl⟩
  | hd :: rest, st, hres => by
    have hsf : strFalsy (getValue self hd.eventName) = false := hres hd (by simp)
    obtain ⟨st', hrec, hbind, e1, e2, e3, e4, e5⟩ :=
      unbindAll_ok self rest
        { st with bindings := (st.bindings.filter
            (fun b => !(unbindMatches ((getValue self hd.target).getD self.element)
              ((getValue self hd.eventName).getD "" ++ "." ++ self.pluginName)
              (getValue self hd.selector) b))) }
        (fun hd2 hmem => hres hd2 (by simp [hmem]))
    refine ⟨st', ?_, ?_, e1, e2, e3, e4, e5⟩
    · simp only [unbindAll]
      rw [instUnbind_ok st self hd hsf]
      exact hrec
    · rw [hbind]
      simp only [List.filter_filter]
      congr 1
      funext b
      simp only [matchesAny, List.any_cons, Bool.not_or]
      rw [Bool.and_comm]

/-! ### Inversion of the cache and entry point -/

theorem getPlugin_cached (st : JQState) (pdef : PluginDef) (e : Nat) (opts : Option JsTree)
    (p : PluginInst) (hc : lookupStore st.store (e, pdef.pluginName) = some p) :
    getPlugin st pdef e opts = .ok (st, p) := by
  simp [getPlugin, hc]

theorem getPlugin_cached_eq (st : JQState) (pdef : PluginDef) (e : Nat) (opts : Option JsTree)
    (st' : JQState) (q p : PluginInst)
    (hc : lookupStore st.store (e, pdef.pluginName) = some p)
    (hok : getPlugin st pdef e opts = .ok (st', q)) : st' = st ∧ q = p := by
  rw [getPlugin_cached st pdef e opts p hc] at hok
  simp only [Except.ok.injEq, Prod.mk.injEq] at hok
  exact ⟨hok.1.symm, hok.2.symm⟩

theorem getPlugin_miss (st : JQState) (pdef : PluginDef) (e : Nat) (opts : Option JsTree)
    (st' : JQState) (p : PluginInst)
    (hmiss : lookupStore st.store (e, pdef.pluginName) = none)
    (hok : getPlugin st pdef e opts = .ok (st', p)) :
    ∃ st2, mkPlugin st pdef e opts = .ok (st2, p) ∧
      st' = { st2 with store := ((e, pdef.pluginName), p) :: st2.store } := by
  simp only [getPlugin, hmiss] at hok
  rcases hmk : mkPlugin st pdef e opts with msg | ⟨st2, q⟩
  · rw [hmk] at hok
    cases hok
  · rw [hmk] at hok
    simp only [Except.ok.injEq, Prod.mk.injEq] at hok
    obtain ⟨rfl, rfl⟩ := hok
    exact ⟨st2, rfl, rfl⟩

theorem mkPlugin_inv (st : JQState) (pdef : PluginDef) (e : Nat) (cfg : Option JsTree)
    (st' : JQState) (p : PluginInst) (hok : mkPlugin st pdef e cfg = .ok (st', p)) :
    p = { pluginName := pdef.pluginName, element := e,
          configVal := (pluginConfig st.heap pdef.defaults cfg).2,
          eventHandlers := pdef.eventHandlers, instId := st.nextInstId } ∧
    bindAll { st with heap := (pluginConfig st.heap pdef.defaults cfg).1, nextInstId := st.nextInstId + 1 } (instView p) pdef.eventHandlers = .ok st' := by
  simp only [mkPlugin] at hok
  split at hok
  · cases hok
  · rename_i st2 heq
    simp only [Except.ok.injEq, Prod.mk.injEq] at hok
    obtain ⟨rfl, rfl⟩ := hok
    exact ⟨rfl, heq⟩

theorem getPlugin_miss_shape (st : JQState) (pdef : PluginDef) (e : Nat) (opts : Option JsTree)
    (st' : JQState) (p : PluginInst)
    (hmiss : lookupStore st.store (e, pdef.pluginName) = none)
    (hok : getPlugin st pdef e opts = .ok (st', p)) :
    p.element = e ∧ p.pluginName = pdef.pluginName ∧ p.instId = st.nextInstId ∧
    st'.store = ((e, pdef.pluginName), p) :: st.store ∧
    st'.nextInstId = st.nextInstId + 1 := by
  obtain ⟨st2, hmk, rfl⟩ := getPlugin_miss st pdef e opts st' p hmiss hok
  obtain ⟨hp, hba⟩ := mkPlugin_inv st pdef e opts st2 p hmk
  obtain ⟨-, hs, hn, -, -⟩ := bindAll_frames _ _ _ _ hba
  refine ⟨by rw [hp], by rw [hp], by rw [hp], ?_, ?_⟩
  · show ((e, pdef.pluginName), p) :: st2.store = _
    rw [hs]
  · show st2.nextInstId = st.nextInstId + 1
    rw [hn]

theorem pluginFn_noArgs (st : JQState) (pdef : PluginDef) (e : Nat) :
    pluginFn st pdef e [] =
      match getPlugin st pdef e (some (.obj .nil)) with
      | .error msg => .error msg
      | .ok (st2, p) => .ok (st2, .handle p.element) := rfl

theorem pluginFn_noArgs_inv (st : JQState) (pdef : PluginDef) (e : Nat) (st' : JQState)
    (r : EntryResult) (hok : pluginFn st pdef e [] = .ok (st', r)) :
    ∃ p, getPlugin st pdef e (some (.obj .nil)) = .ok (st', p) ∧ r = .handle p.element := by
  rw [pluginFn_noArgs] at hok
  rcases hg : getPlugin st pdef e (some (.obj .nil)) with msg | ⟨st2, p⟩
  · rw [hg] at hok
    cases hok
  · rw [hg] at hok
    simp only [Except.ok.injEq, Prod.mk.injEq] at hok
    obtain ⟨rfl, rfl⟩ := hok
    exact ⟨p, rfl, rfl⟩

theorem pluginFn_configArg (st : JQState) (pdef : PluginDef) (e : Nat) (v : JsTree)
    (vrest : List JsTree)
    (hnoapi : apiArgLookup pdef (some v) = .absent)
    (hobj : argIsObjectOrFalsy (some v) = true) :
    pluginFn st pdef e (v :: vrest) =
      match getPlugin st pdef e (some v) with
      | .error msg => .error msg
      | .ok (st2, p) => .ok (st2, .handle p.element) := by
  simp only [pluginFn, List.head?, hnoapi, hobj, if_true]

theorem pluginFn_configArg_inv (st : JQState) (pdef : PluginDef) (e : Nat) (v : JsTree)
    (vrest : List JsTree) (st' : JQState) (r : EntryResult)
    (hnoapi : apiArgLookup pdef (some v) = .absent)
    (hobj : argIsObjectOrFalsy (some v) = true)
    (hok : pluginFn st pdef e (v :: vrest) = .ok (st', r)) :
    ∃ p, getPlugin st pdef e (some v) = .ok (st', p) ∧ r = .handle p.element := by
  rw [pluginFn_configArg st pdef e v vrest hnoapi hobj] at hok
  rcases hg : getPlugin st pdef e (some v) with msg | ⟨st2, p⟩
  · rw [hg] at hok
    cases hok
  · rw [hg] at hok
    simp only [Except.ok.injEq, Prod.mk.injEq] at hok
    obtain ⟨rfl, rfl⟩ := hok
    exact ⟨p, rfl, rfl⟩

theorem pluginFn_method (st : JQState) (pdef : PluginDef) (e : Nat) (m : String)
    (rest : List JsTree) (f : ApiFn) (hm : lookupApi pdef.api m = some f) :
    pluginFn st pdef e (.prim (.str m) :: rest) =
      match getPlugin st pdef e none with
      | .error msg => .error msg
      | .ok (st2, p) => .ok (st2, .value (f (instView p) rest)) := by
  simp only [pluginFn, List.head?, apiArgLookup, hm, List.drop_succ_cons, List.drop_zero]

/-! ### Claims C1, C2 and C10: the constructed configuration -/

/-- C1: for every plugin definition and every caller configuration object,
the constructed instance's `config` is the deep merge of the definition's
defaults and the caller's overrides, with the override value taking
precedence at every nesting level (`specDeepMerge` renders that merge from
the spec's words; `ReprVal` reads the heap-allocated config back as a
literal value). -/
theorem mkPlugin_config_is_deepMerge (st : JQState) (pdef : PluginDef) (e : Nat)
    (dts cts : JsFields) (das : List Nat) (st' : JQState) (p : PluginInst)
    (hrep : ReprVal st.heap pdef.defaults (.obj dts) das)
    (hnd : das.Nodup) (hbel : Below st.heap.next das)
    (hmk : mkPlugin st pdef e (some (.obj cts)) = .ok (st', p)) :
    ∃ as, ReprVal st'.heap p.configVal (specDeepMerge (.obj dts) (.obj cts)) as := by
  obtain ⟨hp, hba⟩ := mkPlugin_inv st pdef e (some (.obj cts)) st' p hmk
  obtain ⟨hh, -, -, -, -⟩ := bindAll_frames (instView p) pdef.eventHandlers _ st' hba
  obtain ⟨as, hr, -, -, -⟩ :=
    pluginConfig_good st.heap pdef.defaults dts das (some (.obj cts)) hrep hnd hbel
  refine ⟨as, ?_⟩
  rw [hh, hp]
  exact hr

/-- C1 witness: a definition with nested defaults and a caller override at
the inner level. -/
theorem mkPlugin_config_is_deepMerge_witness :
    ∃ st' p, mkPlugin c1State c1Pdef 1 (some (.obj c1Cfg)) = .ok (st', p) ∧
      ∃ as, ReprVal st'.heap p.configVal (specDeepMerge (.obj c1DefTree) (.obj c1Cfg)) as := by
  obtain ⟨das, hrep, hnd, hbounds, -, -⟩ := allocTree_good (.obj c1DefTree) ⟨[], 0⟩ _ _ rfl
  exact ⟨_, _, rfl, mkPlugin_config_is_deepMerge c1State c1Pdef 1 c1DefTree c1Cfg das _ _
    hrep hnd (fun x hx => (hbounds x hx).2) rfl⟩

/-- C2 counterexample: with defaults `{a: {x: 1}}` and caller configuration
`{a: {x: 2}}`, building an instance mutates the nested object shared with
the definition's defaults: before construction the defaults read back as
`{a: {x: 1}}`; afterwards they read back as `{a: {x: 2}}` — the shallow
top-level copy (`$.extend({ }, defaults)`) shares nested objects, and the
deep extend reuses and mutates them in place. -/
theorem mkPlugin_defaults_mutated_cex :
    readback 3 c2State.heap c2Pdef.defaults = some (.obj c2DefTree) ∧
    ∃ st' p, mkPlugin c2State c2Pdef 1 (some c2Cfg) = .ok (st', p) ∧
      readback 3 st'.heap c2Pdef.defaults ≠ some (.obj c2DefTree) ∧
      readback 3 st'.heap c2Pdef.defaults =
        some (.obj (.cons "a" (.obj (.cons "x" (.prim (.num 2)) .nil)) .nil)) := by
  refine ⟨rfl, _, _, rfl, ?_, rfl⟩
  decide

/-- C2 amended: construction never changes the definition's defaults
object's own (top-level) property list, nor any object outside the
defaults' region; nested objects inside the defaults, however, may be
mutated in place when the caller configuration overrides keys within them
(exhibited by the counterexample). -/
theorem mkPlugin_defaults_topLevel_preserved (st : JQState) (pdef : PluginDef) (e : Nat)
    (dts : JsFields) (das : List Nat) (cfg : Option JsTree) (st' : JQState) (p : PluginInst)
    (hrep : ReprVal st.heap pdef.defaults (.obj dts) das)
    (hnd : das.Nodup) (hbel : Below st.heap.next das)
    (hmk : mkPlugin st pdef e cfg = .ok (st', p)) :
    (∀ aD, pdef.defaults = .ref aD → st'.heap.get aD = st.heap.get aD) ∧
    (∀ b, b ∉ das → b < st.heap.next → st'.heap.get b = st.heap.get b) := by
  obtain ⟨hp, hba⟩ := mkPlugin_inv st pdef e cfg st' p hmk
  obtain ⟨hh, -, -, -, -⟩ := bindAll_frames (instView p) pdef.eventHandlers _ st' hba
  obtain ⟨as, -, -, hframe, hframeD⟩ :=
    pluginConfig_good st.heap pdef.defaults dts das cfg hrep hnd hbel
  constructor
  · intro aD heq
    rw [hh]
    exact hframeD aD heq
  · intro b hbm hblt
    rw [hh]
    exact hframe b hbm hblt

/-- C2 amended witness: the top-level property list of the concrete
defaults object is untouched by the construction of the counterexample. -/
theorem mkPlugin_defaults_topLevel_preserved_witness :
    ∃ st' p, mkPlugin c2State c2Pdef 1 (some c2Cfg) = .ok (st', p) ∧
      (∀ aD, c2Pdef.defaults = .ref aD → st'.heap.get aD = c2State.heap.get aD) := by
  obtain ⟨das, hrep, hnd, hbounds, -, -⟩ := allocTree_good (.obj c2DefTree) ⟨[], 0⟩ _ _ rfl
  exact ⟨_, _, rfl, (mkPlugin_defaults_topLevel_preserved c2State c2Pdef 1 c2DefTree das
    (some c2Cfg) _ _ hrep hnd (fun x hx => (hbounds x hx).2) rfl).1⟩

/-- C10: when the entry point is called with a declared API method name on
an element with no cached instance, the instance is constructed with a
config equal to the definition's defaults alone — the method-invocation
path performs the lookup without an options argument, so no caller
configuration overrides can be supplied through it. -/
theorem entry_methodPath_defaultsOnlyConfig (st : JQState) (pdef : PluginDef) (e : Nat)
    (m : String) (f : ApiFn) (rest : List JsTree) (dts : JsFields) (das : List Nat)
    (st' : JQState) (r : EntryResult)
    (hm : lookupApi pdef.api m = some f)
    (hmiss : lookupStore st.store (e, pdef.pluginName) = none)
    (hrep : ReprVal st.heap pdef.defaults (.obj dts) das)
    (hnd : das.Nodup) (hbel : Below st.heap.next das)
    (hok : pluginFn st pdef e (.prim (.str m) :: rest) = .ok (st', r)) :
    ∃ p as, lookupStore st'.store (e, pdef.pluginName) = some p ∧
      ReprVal st'.heap p.configVal (.obj dts) as := by
  rw [pluginFn_method st pdef e m rest f hm] at hok
  rcases hg : getPlugin st pdef e none with msg | ⟨st2, p⟩
  · rw [hg] at hok
    cases hok
  · rw [hg] at hok
    simp only [Except.ok.injEq, Prod.mk.injEq] at hok
    obtain ⟨rfl, -⟩ := hok
    obtain ⟨st3, hmk, rfl⟩ := getPlugin_miss st pdef e none st2 p hmiss hg
    obtain ⟨hp, hba⟩ := mkPlugin_inv st pdef e none st3 p hmk
    obtain ⟨hh, -, -, -, -⟩ := bindAll_frames (instView p) pdef.eventHandlers _ st3 hba
    obtain ⟨as, hr, -, -, -⟩ := pluginConfig_good st.heap pdef.defaults dts das none hrep hnd hbel
    refine ⟨p, as, by simp [lookupStore], ?_⟩
    show ReprVal st3.heap p.configVal (.obj dts) as
    rw [hh, hp]
    exact hr

/-- C10 witness: invoking a declared method on an uncached element builds
an instance whose config is the defaults alone. -/
theorem entry_methodPath_defaultsOnlyConfig_witness :
    ∃ st' r, pluginFn c10State c10Pdef 1 [.prim (.str "go")] = .ok (st', r) ∧
      ∃ p as, lookupStore st'.store (1, c10Pdef.pluginName) = some p ∧
        ReprVal st'.heap p.configVal (.obj c10DefTree) as := by
  obtain ⟨das, hrep, hnd, hbounds, -, -⟩ := allocTree_good (.obj c10DefTree) ⟨[], 0⟩ _ _ rfl
  exact ⟨_, _, rfl, entry_methodPath_defaultsOnlyConfig c10State c10Pdef 1 "go" c10Fn []
    c10DefTree das _ _ rfl rfl hrep hnd (fun x hx => (hbounds x hx).2) rfl⟩

/-- C3: at most one live instance per (element, plugin name) pair — the
lookup returns the cached instance when one exists and constructs and
caches a new one only when none exists; re-invoking the entry point on the
same element without a method name returns the previously created instance
and changes nothing (in particular no duplicate handler bindings), while
two distinct elements get independent instances. -/
theorem entry_singleInstancePerElement (st0 : JQState) (pdef : PluginDef) (e1 e2 : Nat)
    (st1 st2 st3 : JQState) (r1 r2 r3 : EntryResult)
    (hne : e1 ≠ e2)
    (hmiss1 : lookupStore st0.store (e1, pdef.pluginName) = none)
    (hmiss2 : lookupStore st0.store (e2, pdef.pluginName) = none)
    (h1 : pluginFn st0 pdef e1 [] = .ok (st1, r1))
    (h2 : pluginFn st1 pdef e2 [] = .ok (st2, r2))
    (h3 : pluginFn st2 pdef e1 [] = .ok (st3, r3)) :
    st3 = st2 ∧
    ∃ p1 p2, lookupStore st2.store (e1, pdef.pluginName) = some p1 ∧
      lookupStore st2.store (e2, pdef.pluginName) = some p2 ∧
      p1.element = e1 ∧ p2.element = e2 ∧ p1.instId ≠ p2.instId ∧
      r3 = .handle e1 := by
  obtain ⟨p1, hg1, hr1⟩ := pluginFn_noArgs_inv st0 pdef e1 st1 r1 h1
  obtain ⟨he1, hn1, hid1, hs1, hni1⟩ := getPlugin_miss_shape st0 pdef e1 _ st1 p1 hmiss1 hg1
  obtain ⟨p2, hg2, hr2⟩ := pluginFn_noArgs_inv st1 pdef e2 st2 r2 h2
  have hmiss2' : lookupStore st1.store (e2, pdef.pluginName) = none := by
    rw [hs1]
    simp [lookupStore, hne, hmiss2]
  obtain ⟨he2, hn2, hid2, hs2, hni2⟩ := getPlugin_miss_shape st1 pdef e2 _ st2 p2 hmiss2' hg2
  obtain ⟨p1', hg3, hr3⟩ := pluginFn_noArgs_inv st2 pdef e1 st3 r3 h3
  have hc3 : lookupStore st2.store (e1, pdef.pluginName) = some p1 := by
    rw [hs2, hs1]
    simp [lookupStore, Ne.symm hne]
  obtain ⟨he3, hp3⟩ := getPlugin_cached_eq st2 pdef e1 _ st3 p1' p1 hc3 hg3
  refine ⟨he3, p1, p2, hc3, ?_, he1, he2, ?_, ?_⟩
  · rw [hs2]
    simp [lookupStore]
  · rw [hid1, hid2, hni1]
    omega
  · rw [hr3, hp3, he1]

/-- C3 witness: two elements, three invocations. -/
theorem entry_singleInstancePerElement_witness :
    ∃ st1 r1 st2 r2 st3 r3,
      pluginFn c3State c3Pdef 1 [] = .ok (st1, r1) ∧
      pluginFn st1 c3Pdef 2 [] = .ok (st2, r2) ∧
      pluginFn st2 c3Pdef 1 [] = .ok (st3, r3) ∧
      (st3 = st2 ∧
        ∃ p1 p2, lookupStore st2.store (1, c3Pdef.pluginName) = some p1 ∧
          lookupStore st2.store (2, c3Pdef.pluginName) = some p2 ∧
          p1.element = 1 ∧ p2.element = 2 ∧ p1.instId ≠ p2.instId ∧
          r3 = .handle 1) := by
  refine ⟨_, _, _, _, _, _, rfl, rfl, rfl, ?_⟩
  exact entry_singleInstancePerElement c3State c3Pdef 1 2 _ _ _ _ _ _
    (by decide) rfl rfl rfl rfl rfl

/-- C4: calling the generated entry point with a declared API method name
as first argument invokes the definition's method on the cached-or-created
instance, with the instance as receiver, passing exactly the remaining
arguments unchanged, and returns the method's return value. -/
theorem entry_apiDispatch (st : JQState) (pdef : PluginDef) (e : Nat) (m : String)
    (f : ApiFn) (rest : List JsTree) (st' : JQState) (p : PluginInst)
    (hm : lookupApi pdef.api m = some f)
    (hg : getPlugin st pdef e none = .ok (st', p)) :
    pluginFn st pdef e (.prim (.str m) :: rest) = .ok (st', .value (f (instView p) rest)) := by
  rw [pluginFn_method st pdef e m rest f hm, hg]

/-- C4 witness: the declared method receives the instance and the extra
arguments unchanged, and its return value is forwarded. -/
theorem entry_apiDispatch_witness :
    ∃ st' p, getPlugin c4State c4Pdef 1 none = .ok (st', p) ∧
      pluginFn c4State c4Pdef 1 [.prim (.str "echo"), .prim (.num 5), .prim .null] =
        .ok (st', .value (c4Fn (instView p) [.prim (.num 5), .prim .null])) := by
  exact ⟨_, _, rfl, entry_apiDispatch c4State c4Pdef 1 "echo" c4Fn
    [.prim (.num 5), .prim .null] _ _ rfl rfl⟩

/-- C5 (amended): a first argument whose `api[arg]` lookup finds nothing —
neither a declared API method name nor a name inherited from
`Object.prototype` — and which is not an object and not absent/falsy makes
the generated entry point raise an error synchronously (an `Except.error`,
halting the call), rather than executing or silently ignoring the call.
The `Object.prototype` exclusion is necessary: see the counterexample. -/
theorem entry_unknownMethod (st : JQState) (pdef : PluginDef) (e : Nat) (v : JsTree)
    (rest : List JsTree)
    (hnoapi : apiArgLookup pdef (some v) = .absent)
    (hnotobj : argIsObjectOrFalsy (some v) = false) :
    pluginFn st pdef e (v :: rest) =
      .error ("Method [" ++ jsToString v ++ "] does not exist for jQuery." ++ pdef.pluginName) := by
  simp [pluginFn, List.head?, hnoapi, hnotobj]

/-- C5 witness: an undeclared, non-inherited method name. -/
theorem entry_unknownMethod_witness :
    pluginFn c5State c5Pdef 1 [.prim (.str "nope")] =
      .error ("Method [nope] does not exist for jQuery.plug") :=
  entry_unknownMethod c5State c5Pdef 1 (.prim (.str "nope")) [] rfl rfl

/-- C5 counterexample to the unamended claim: `"toString"` is not a
declared API method name, is truthy and not an object, yet the entry point
raises no error — `api["toString"]` finds `Object.prototype.toString`
through the prototype chain, so line 345's test is truthy and the call
takes the dispatch path, constructing the instance and returning the
inherited builtin's value. -/
theorem entry_unknownMethod_cex :
    lookupApi c5Pdef.api "toString" = none ∧
    argIsObjectOrFalsy (some (.prim (.str "toString"))) = false ∧
    ∃ st' t, pluginFn c5State c5Pdef 1 [.prim (.str "toString")] =
      .ok (st', .value t) := by
  exact ⟨rfl, rfl, _, _, rfl⟩

/-- C6: with a configuration-object first argument or no arguments, the
entry point creates or retrieves the instance and returns the handle of
the same wrapped element it was called on (enabling chaining). -/
theorem entry_configPath_returnsHandle (st : JQState) (pdef : PluginDef) (e : Nat)
    (args : List JsTree) (st' : JQState) (r : EntryResult)
    (hwf : StoreWF st)
    (hnoapi : apiArgLookup pdef args.head? = .absent)
    (hobj : argIsObjectOrFalsy args.head? = true)
    (hok : pluginFn st pdef e args = .ok (st', r)) :
    r = .handle e := by
  have key : ∀ (opts : Option JsTree) (stx : JQState) (p : PluginInst),
      getPlugin st pdef e opts = .ok (stx, p) → p.element = e := by
    intro opts stx p hg
    cases hc : lookupStore st.store (e, pdef.pluginName) with
    | none => exact (getPlugin_miss_shape st pdef e opts stx p hc hg).1
    | some q =>
      obtain ⟨-, rfl⟩ := getPlugin_cached_eq st pdef e opts stx p q hc hg
      exact (hwf e pdef.pluginName p hc).1
  rcases args with _ | ⟨v, vrest⟩
  · obtain ⟨p, hg, rfl⟩ := pluginFn_noArgs_inv st pdef e st' r hok
    rw [key _ _ _ hg]
  · obtain ⟨p, hg, rfl⟩ := pluginFn_configArg_inv st pdef e v vrest st' r hnoapi hobj hok
    rw [key _ _ _ hg]

/-- C6 witness: an argument-free call returns the handle of the element it
was made on. -/
theorem entry_configPath_returnsHandle_witness :
    StoreWF c6State ∧
    ∃ st' r, pluginFn c6State c6Pdef 7 [] = .ok (st', r) ∧ r = .handle 7 := by
  have hwf : StoreWF c6State := by
    intro e n p h
    simp [c6State, lookupStore] at h
  exact ⟨hwf, _, _, rfl,
    entry_configPath_returnsHandle c6State c6Pdef 7 [] _ _ hwf rfl rfl rfl⟩

theorem unbindMatches_iff (tgt : Nat) (fe : String) (sel : Option String) (b : Binding) :
    unbindMatches tgt fe sel b = true ↔
      (b.target = tgt ∧ b.fullEventName = fe ∧ (sel = none ∨ b.selector = sel)) := by
  simp [unbindMatches, Option.isNone_iff_eq_none, and_assoc]

/-- C7: a handler descriptor whose `eventName` resolves (with the instance
as receiver) to null/absent or the empty string makes each of `bind`,
`unbind` and `trigger` raise the `eventName is required` error
synchronously; with a non-empty resolved event name, none of them raises
this error. -/
theorem handlerOps_eventName_check (st : JQState) (self : InstView) (hd : HandlerDef) :
    (strFalsy (getValue self hd.eventName) = true →
      instBind st self hd = .error errEventName ∧
      instUnbind st self hd = .error errEventName ∧
      instTrigger st self hd = .error errEventName) ∧
    (strFalsy (getValue self hd.eventName) = false →
      (∃ st1, instBind st self hd = .ok st1) ∧
      (∃ st2, instUnbind st self hd = .ok st2) ∧
      (∃ l, instTrigger st self hd = .ok l)) := by
  constructor
  · intro hsf
    exact ⟨instBind_err st self hd hsf, instUnbind_err st self hd hsf,
      instTrigger_err st self hd hsf⟩
  · intro hsf
    exact ⟨⟨_, instBind_ok st self hd hsf⟩, ⟨_, instUnbind_ok st self hd hsf⟩,
      ⟨_, instTrigger_ok st self hd hsf⟩⟩

/-- C7 witness: an absent event name errors in all three operations; a
non-empty one errors in none of them. -/
theorem handlerOps_eventName_check_witness :
    (instBind c7State c7View c7HdBad = .error errEventName ∧
     instUnbind c7State c7View c7HdBad = .error errEventName ∧
     instTrigger c7State c7View c7HdBad = .error errEventName) ∧
    ((∃ st1, instBind c7State c7View c7HdGood = .ok st1) ∧
     (∃ st2, instUnbind c7State c7View c7HdGood = .ok st2) ∧
     (∃ l, instTrigger c7State c7View c7HdGood = .ok l)) :=
  ⟨(handlerOps_eventName_check c7State c7View c7HdBad).1 rfl,
   (handlerOps_eventName_check c7State c7View c7HdGood).2 rfl⟩

/-- C8: with a non-empty resolved event name, `bind`, `unbind` and
`trigger` all operate on the namespaced identifier
`eventName ++ "." ++ pluginName` — the new binding carries it, `unbind`
removes exactly the matching bindings carrying it, `trigger` fires exactly
the bindings carrying it — and the resolved target defaults to the wrapped
element when the descriptor supplies none. -/
theorem handlerOps_namespacedEvent (st : JQState) (self : InstView) (hd : HandlerDef)
    (s : String) (hs : getValue self hd.eventName = some s) (hne : s ≠ "") :
    (∃ st1, instBind st self hd = .ok st1 ∧
      st1.bindings = st.bindings ++
        [{ target := (getValue self hd.target).getD self.element,
           fullEventName := s ++ "." ++ self.pluginName,
           selector := getValue self hd.selector,
           handler := hd.handler, id := st.nextBindingId }]) ∧
    (∃ st2, instUnbind st self hd = .ok st2 ∧
      ∀ b, b ∈ st2.bindings ↔ (b ∈ st.bindings ∧
        ¬(b.target = (getValue self hd.target).getD self.element ∧
          b.fullEventName = s ++ "." ++ self.pluginName ∧
          (getValue self hd.selector = none ∨ b.selector = getValue self hd.selector)))) ∧
    (∃ l, instTrigger st self hd = .ok l ∧
      ∀ b, b ∈ l ↔ (b ∈ st.bindings ∧
        b.target = (getValue self hd.target).getD self.element ∧
        b.fullEventName = s ++ "." ++ self.pluginName)) ∧
    (hd.target = none → (getValue self hd.target).getD self.element = self.element) := by
  have hsf : strFalsy (getValue self hd.eventName) = false := by
    rw [hs]
    simpa [strFalsy] using hne
  have hfull : (getValue self hd.eventName).getD "" = s := by rw [hs]; rfl
  have hnotTrue : ∀ u : Bool, ((!u) = true) ↔ ¬(u = true) := by decide
  refine ⟨⟨_, instBind_ok st self hd hsf, by rw [hfull]⟩,
    ⟨_, instUnbind_ok st self hd hsf, ?_⟩,
    ⟨_, instTrigger_ok st self hd hsf, ?_⟩, ?_⟩
  · intro b
    show b ∈ List.filter _ st.bindings ↔ _
    rw [List.mem_filter, hnotTrue, unbindMatches_iff, hfull]
  · intro b
    show b ∈ List.filter _ st.bindings ↔ _
    rw [List.mem_filter, hfull]
    simp [and_assoc]
  · intro ht
    rw [ht]
    rfl

/-- C8 witness: a callback-valued event name resolving to `"click"` on a
state with one matching and one non-matching binding. -/
theorem handlerOps_namespacedEvent_witness :
    (∃ st1, instBind c8State c8View c8Hd = .ok st1 ∧
      st1.bindings = c8State.bindings ++
        [{ target := (getValue c8View c8Hd.target).getD c8View.element,
           fullEventName := "click" ++ "." ++ c8View.pluginName,
           selector := getValue c8View c8Hd.selector,
           handler := c8Hd.handler, id := c8State.nextBindingId }]) ∧
    (∃ st2, instUnbind c8State c8View c8Hd = .ok st2 ∧
      ∀ b, b ∈ st2.bindings ↔ (b ∈ c8State.bindings ∧
        ¬(b.target = (getValue c8View c8Hd.target).getD c8View.element ∧
          b.fullEventName = "click" ++ "." ++ c8View.pluginName ∧
          (getValue c8View c8Hd.selector = none ∨
            b.selector = getValue c8View c8Hd.selector)))) ∧
    (∃ l, instTrigger c8State c8View c8Hd = .ok l ∧
      ∀ b, b ∈ l ↔ (b ∈ c8State.bindings ∧
        b.target = (getValue c8View c8Hd.target).getD c8View.element ∧
        b.fullEventName = "click" ++ "." ++ c8View.pluginName)) ∧
    (c8Hd.target = none → (getValue c8View c8Hd.target).getD c8View.element = c8View.element) :=
  handlerOps_namespacedEvent c8State c8View c8Hd "click" rfl (by decide)

/-- C9: `destroy` unbinds every handler descriptor registered at
initialization — after a (non-full) destroy no binding created by the
construction remains, so triggering any of the instance's descriptors no
longer fires those handlers, and the elements are left in place; with the
`fullDestroy` flag set, the wrapped element is additionally removed. -/
theorem destroy_unbindsAll (st0 : JQState) (pdef : PluginDef) (e : Nat) (cfg : Option JsTree)
    (st1 : JQState) (p : PluginInst)
    (hbwf : ∀ b ∈ st0.bindings, b.id < st0.nextBindingId)
    (hmk : mkPlugin st0 pdef e cfg = .ok (st1, p)) :
    (∃ st2, instDestroy st1 p false = .ok st2 ∧
      (∀ b ∈ st2.bindings, b.id < st0.nextBindingId) ∧
      (∀ hd ∈ p.eventHandlers, ∀ l, instTrigger st2 (instView p) hd = .ok l →
        ∀ b ∈ l, b.id < st0.nextBindingId) ∧
      st2.elements = st1.elements) ∧
    (∃ st3, instDestroy st1 p true = .ok st3 ∧
      (∀ b ∈ st3.bindings, b.id < st0.nextBindingId) ∧ e ∉ st3.elements) := by
  obtain ⟨hp, hba⟩ := mkPlugin_inv st0 pdef e cfg st1 p hmk
  have hev : p.eventHandlers = pdef.eventHandlers := by rw [hp]
  have hpe : p.element = e := by rw [hp]
  have hres := bindAll_resolves (instView p) pdef.eventHandlers _ st1 hba
  have hadds := bindAll_adds (instView p) pdef.eventHandlers _ st1 hba
  obtain ⟨st2, hu, hbind, -, -, hel, -, -⟩ :=
    unbindAll_ok (instView p) p.eventHandlers st1 (by rw [hev]; exact hres)
  have hsurv : ∀ b ∈ st2.bindings, b.id < st0.nextBindingId := by
    intro b hb
    rw [hbind, List.mem_filter] at hb
    obtain ⟨hb1, hb2⟩ := hb
    rcases hadds b hb1 with hmem | ⟨hge, hmatch⟩
    · exact hbwf b hmem
    · rw [hev, hmatch] at hb2
      simp at hb2
  have hdf : instDestroy st1 p false = .ok st2 := by
    simp only [instDestroy, hu]
    rfl
  have hdt : instDestroy st1 p true = .ok (removeElem st2 p.element) := by
    simp only [instDestroy, hu]
    rfl
  refine ⟨⟨st2, hdf, hsurv, ?_, hel⟩, removeElem st2 p.element, hdt, ?_, ?_⟩
  · intro hd hmem l htr b hb
    obtain ⟨-, rfl⟩ := instTrigger_inv st2 (instView p) hd l htr
    rw [List.mem_filter] at hb
    exact hsurv b hb.1
  · intro b hb
    have hb2 : b ∈ st2.bindings := by
      simp only [removeElem, List.mem_filter] at hb
      exact hb.1
    exact hsurv b hb2
  · rw [hpe]
    intro hmem
    simp only [removeElem, List.mem_filter] at hmem
    simp at hmem

/-- C9 witness: a definition with one handler descriptor; construction
then destruction, both non-full and full. -/
theorem destroy_unbindsAll_witness :
    ∃ st1 p, mkPlugin c9State c9Pdef 1 none = .ok (st1, p) ∧
      ((∃ st2, instDestroy st1 p false = .ok st2 ∧
        (∀ b ∈ st2.bindings, b.id < c9State.nextBindingId) ∧
        (∀ hd ∈ p.eventHandlers, ∀ l, instTrigger st2 (instView p) hd = .ok l →
          ∀ b ∈ l, b.id < c9State.nextBindingId) ∧
        st2.elements = st1.elements) ∧
      (∃ st3, instDestroy st1 p true = .ok st3 ∧
        (∀ b ∈ st3.bindings, b.id < c9State.nextBindingId) ∧ 1 ∉ st3.elements)) := by
  exact ⟨_, _, rfl, destroy_unbindsAll c9State c9Pdef 1 none _ _ (by simp [c9State]) rfl⟩

end MakePlugin
